import Mathlib

/-!
# Precision-tiered constant cache of apd (const.go)

A shallow embedding of `makeConst`, `makeConstWithPrecision` and
`constWithPrecision.get`, followed by theorems about them.

Conventions of the embedding:

* `uint32` values are natural numbers; the only operation of const.go that can
  wrap (`p *= 2` in the ladder loop) is reduced modulo `2 ^ 32`, and the
  conversion `uint32(len(strVal))` is a reduction modulo `2 ^ 32` as well.
* `panic(err)` is `Except.error err`; a normal return is `Except.ok`.
* The ladder loop of `makeConstWithPrecision` need not terminate, so it runs on
  fuel: `none` means the fuel ran out before the loop guard became false.
* `get` returns a pointer into the cache; the embedding returns the place it
  points to (`Ref`) and `constWithPrecision.load` reads it.
* The decimal type, its parser `SetString`, the rounding routine
  `Context.Round` and the bounds `MaxExponent`/`MinExponent` live outside
  const.go: they are the fields of `Engine`, and the general theorems hold for
  every engine.
-/

namespace Apd

/-! ## Collaborators of const.go -/

/-- Modelled from the spec: the rounding-mode enumeration of the engine, declared
outside const.go. The spec names one member, round half up. -/
inductive Rounder where
  | RoundHalfUp : Rounder
  deriving DecidableEq, Repr

/-- The fields of `Context` that `makeConstWithPrecision` fills in. -/
structure Context where
  Precision : Nat
  Rounding : Rounder
  MaxExponent : Int
  MinExponent : Int
  deriving DecidableEq, Repr

/-- The parts of the arithmetic engine const.go relies on: `Decimal.SetString`,
`Context.Round` and the global exponent bounds, which it calls, and
`Decimal.NumDigits`, the digit count that statements about precision refer to. -/
structure Engine (D Err : Type) where
  SetString : String → Except Err D
  Round : Context → D → Except Err D
  NumDigits : D → Nat
  MaxExponent : Int
  MinExponent : Int

/-! ## const.go -/

/-- The function `makeConst`: parse the literal, panic on a parse error. -/
def makeConst {D Err : Type} (E : Engine D Err) (strVal : String) : Except Err D :=
  match E.SetString strVal with
  | .error err => .error err
  | .ok d => .ok d

/-- The look-up table `constWithPrecision`. -/
structure constWithPrecision (D : Type) where
  unrounded : D
  vals : List D
  deriving DecidableEq, Repr

/-- The context built in each iteration of the ladder loop. -/
def ladderContext {D Err : Type} (E : Engine D Err) (p : Nat) : Context :=
  { Precision := p
    Rounding := Rounder.RoundHalfUp
    MaxExponent := E.MaxExponent
    MinExponent := E.MinExponent }

/-- The loop `for p := uint32(1); p < maxPrec; p *= 2` of
`makeConstWithPrecision`, started in the state `(p, vals)`. -/
def ladderLoop {D Err : Type} (E : Engine D Err) (unrounded : D) (maxPrec : Nat) :
    Nat → Nat → List D → Option (Except Err (List D))
  | fuel, p, vals =>
    if p < maxPrec then
      match fuel with
      | 0 => none
      | fuel + 1 =>
        match E.Round (ladderContext E p) unrounded with
        | .error err => some (.error err)
        | .ok d => ladderLoop E unrounded maxPrec fuel (p * 2 % 2 ^ 32) (vals ++ [d])
    else some (.ok vals)

/-- The function `makeConstWithPrecision`. -/
def makeConstWithPrecision {D Err : Type} (E : Engine D Err) (fuel : Nat) (strVal : String) :
    Option (Except Err (constWithPrecision D)) :=
  match E.SetString strVal with
  | .error err => some (.error err)
  | .ok unrounded =>
    let maxPrec := strVal.utf8ByteSize % 2 ^ 32
    match ladderLoop E unrounded maxPrec fuel 1 [] with
    | none => none
    | some (.error err) => some (.error err)
    | some (.ok vals) => some (.ok { unrounded := unrounded, vals := vals })

/-- A place inside a cache: what the pointer returned by `get` points to. -/
inductive Ref where
  | unrounded : Ref
  | vals (i : Nat) : Ref
  deriving DecidableEq, Repr

/-- Reading a place of a cache; `none` is an index out of range. -/
def constWithPrecision.load {D : Type} (c : constWithPrecision D) : Ref → Option D
  | .unrounded => some c.unrounded
  | .vals i => c.vals[i]?

/-- The loop `for precision >= 16 { precision /= 16; i += 4 }` of `get`. -/
def getLoop16 (precision i : Nat) : Nat × Nat :=
  if 16 ≤ precision then getLoop16 (precision / 16) (i + 4) else (precision, i)
termination_by precision
decreasing_by omega

/-- The loop `for precision >= 2 { precision /= 2; i++ }` of `get`. -/
def getLoop2 (precision i : Nat) : Nat × Nat :=
  if 2 ≤ precision then getLoop2 (precision / 2) (i + 1) else (precision, i)
termination_by precision
decreasing_by omega

/-- The state `(precision, i)` of `get` after `if precision > 1 { precision--; i++ }`. -/
def getStart (precision : Nat) : Nat × Nat :=
  if 1 < precision then (precision - 1, 1) else (precision, 0)

/-- The index `i` that `get` has computed when it reaches `if i >= len(c.vals)`. -/
def getIndex (precision : Nat) : Nat :=
  let s0 := getStart precision
  let s1 := getLoop16 s0.1 s0.2
  let s2 := getLoop2 s1.1 s1.2
  s2.2

/-- The method `constWithPrecision.get`. -/
def constWithPrecision.get {D : Type} (c : constWithPrecision D) (precision : Nat) : Ref :=
  let i := getIndex precision
  if c.vals.length ≤ i then Ref.unrounded else Ref.vals i

/-- The loop `for precision >= 16` of `get` run for at most `fuel` iterations;
`none` means the guard still held when the fuel ran out. -/
def getLoop16Fuel : Nat → Nat → Nat → Option (Nat × Nat)
  | 0, precision, i => if 16 ≤ precision then none else some (precision, i)
  | fuel + 1, precision, i =>
    if 16 ≤ precision then getLoop16Fuel fuel (precision / 16) (i + 4) else some (precision, i)

/-- The loop `for precision >= 2` of `get` run for at most `fuel` iterations;
`none` means the guard still held when the fuel ran out. -/
def getLoop2Fuel : Nat → Nat → Nat → Option (Nat × Nat)
  | 0, precision, i => if 2 ≤ precision then none else some (precision, i)
  | fuel + 1, precision, i =>
    if 2 ≤ precision then getLoop2Fuel fuel (precision / 2) (i + 1) else some (precision, i)

/-- The number of significant digits of the value `get(precision)` returns: the
digit count of the value stored at the place returned. -/
def digitsReturned {D Err : Type} (E : Engine D Err) (c : constWithPrecision D)
    (precision : Nat) : Option Nat :=
  (c.load (c.get precision)).map E.NumDigits

/-! ## The literals of const.go -/

def strLn10 : String := "2.3025850929940456840179914546843642076011014886287729760333279009675726096773524802359972050895982983419677840422862486334095254650828067566662873690987816894829072083255546808437998948262331985283935053089653777326288461633662222876982198867465436674744042432743651550489343149393914796194044002221051017141748003688084012647080685567743216228355220114804663715659121373450747856947683463616792101806445070648000277502684916746550586856935673420670581136429224554405758925724208241314695689016758940256776311356919292033376587141660230105703089634572075440370847469940168269282808481184289314848524948644871927809676271275775397027668605952496716674183485704422507197965004714951050492214776567636938662976979522110718264549734772662425709429322582798502585509785265383207606726317164309505995087807523710333101197857547331541421808427543863591778117054309827482385045648019095610299291824318237525357709750539565187697510374970888692180205189339507238539205144634197265287286965110862571492198849978748873771345686209167058498078280597511938544450099781311469159346662410718466923101075984383191912922307925037472986509290098803919417026544168163357275557031515961135648465461908970428197633658369837163289821744073660091621778505417792763677311450417821376601110107310423978325218948988175979217986663943195239368559164471182467532456309125287783309636042629821530408745609277607266413547875766162629265682987049579549139549180492090694385807900327630179415031178668620924085379498612649334793548717374516758095370882810674524401058924449764796860751202757241818749893959716431055188481952883307466993178146349300003212003277656541304726218839705967944579434683432183953044148448037013057536742621536755798147704580314136377932362915601281853364984669422614652064599420729171193706024449293580370077189810973625332245483669885055282859661928050984471751985036666808749704969822732202448233430971691111368135884186965493237149969419796878030088504089796185987565798948364452120436982164152929878117429733325886079159125109671875109292484750239305726654462762009230687915181358034777012955936462984123664970233551745861955647724618577173693684046765770478743197805738532718109338834963388130699455693993461010907456160333122479493604553618491233330637047517248712763791409243983318101647378233796922656376820717069358463945316169494117018419381194054164494661112747128197058177832938417422314099300229115023621921867233372683856882735333719251034129307056325444266114297653883018223840910261985828884335874559604530045483707890525784731662837019533922310475275649981192287427897137157132283196410034221242100821806795252766898581809561192083917607210809199234615169525990994737827806481280587927319938934534153201859697110214075422827962982370689417647406422257572124553925261793736524344405605953365915391603125244801493132345724538795243890368392364505078817313597112381453237015084134911223243909276817247496079557991513639828810582857405380006533716555530141963322419180876210182049194926514838926922937079"

def strInvLn10 : String := "0.4342944819032518276511289189166050822943970058036665661144537831658646492088707747292249493384317483187061067447663037336416792871589639065692210646628122658521270865686703295933708696588266883311636077384905142844348666768646586085135561482123487653435434357317253835622281395603048646652366095539377356176323431916710991411597894962993512457934926357655469077671082419150479910989674900103277537653570270087328550951731440674697951899513594088040423931518868108402544654089797029863286828762624144013457043546132920600712605104028367125954846287707861998992326748439902348171535934551079475492552482577820679220140931468164467381030560475635720408883383209488996522717494541331791417640247407505788767860971099257547730046048656049515610057985741340272675201439247917970859047931285212493341197329877226463885350226083881626316463883553685501768460295286399391633510647555704050513182342988874882120643595023818902643317711537382203362634416478397146001858396093006317333986134035135741787144971453076492968331392399810608505734816169809280016199523523117237676561989228127013815804248715978344927215947562057179993483814031940166771520104787197582531617951490375597514246570736646439756863149325162498727994852637448791165959219701720662704559284657036462635675733575739369673994570909602526350957193468839951236811356428010958778313759442713049980643798750414472095974872674060160650105375287000491167867133309154761441005054775930890767885596533432190763128353570304854020979941614010807910607498871752495841461303867532086001324486392545573072842386175970677989354844570318359336523016027971626535726514428519866063768635338181954876389161343652374759465663921380736144503683797876824369028804493640496751871720614130731804417180216440993200651069696951247072666224570004229341407923361685302418860272411867806272570337552562870767696632173672454758133339263840130320038598899947332285703494195837691472090608812447825078736711573033931565625157907093245370450744326623349807143038059581776957944070042202545430531910888982754062263600601879152267477788232096025228766762416332296812464502577295040226623627536311798532153780883272326920785980990757434437367248710355853306546581653535157943990070326436222520010336980419843015524524173190520247212241110927324425302930200871037337504867498689117225672067268275246578790446735268575794059983346595878592624978725380185506389602375304294539963737367434680767515249986297676732404903363175488195323680087668648666069282082342536311304939972702858872849086258458687045569244548538607202497396631126372122497538854967981580284810494724140453341192674240839673061167234256843129624666246259542760677182858963306586513950932049023032806357536242804315480658368852257832901530787483141985929074121415344772165398214847619288406571345438798607895199435011532826457742311266817183284968697890904324421005272233475053141625981646457044538901148313760708445483457955728303866473638468537587172210685993933008378534367552699899185150879055911525282664"

def str48Div17 : String := "2.8235294117647058823529411764705882352941176470588235294117647058823529411764705882352941176470588235294117647058823529411764705882352941176470588235294117647058823529411764705882352941176470588235294117647058823529411764705882352941176470588235294117647058823529411764705882352941176470588235294117647058823529411764705882352941176470588235294117647058823529411764705882352941176470588235294117647058823529411764705882352941176470588235294117647058823529411764705882352941176470588235294117647058823529411764705882352941176470588235294117647058823529411764705882352941176470588235294117647058823529411764705882352941176470588235294117647058823529411764705882352941176470588235294117647058823529411764705882352941176470588235294117647058823529411764705882352941176470588235294117647058823529411764705882352941176470588235294117647058823529411764705882352941176470588235294117647058823529411764705882352941176470588235294117647058823529411764705882352941176470588235294117647058823529411764705882352941176470588235294117647058823529411764705882352941176470588235294117647058823529411764705882352941176470588235294117647058823529411764705882352941176470588235294117647058823529411764705882352941176470588235294117647058823529411764705882352941176470588235294117647058823529411764705882352941176470588235294117647058823529411764705882352941176470588235294117647058823529411764705882352941176470588235294117647058823529411764705882352941176470588235294117647058823529411764705882352941176470588235294117647058823529411764705882352941176470588235294117647058823529411764705882352941176470588235294117647058823529411764705882352941176470588235294117647058823529411764705882352941176470588235294117647058823529411764705882352941176470588235294117647058823529411764705882352941176470588235294117647058823529411764705882352941176470588235294117647058823529411764705882352941176470588235294117647058823529411764705882352941176470588235294117647058823529411764705882352941176470588235294117647058823529411764706"

def str32Div17 : String := "1.8823529411764705882352941176470588235294117647058823529411764705882352941176470588235294117647058823529411764705882352941176470588235294117647058823529411764705882352941176470588235294117647058823529411764705882352941176470588235294117647058823529411764705882352941176470588235294117647058823529411764705882352941176470588235294117647058823529411764705882352941176470588235294117647058823529411764705882352941176470588235294117647058823529411764705882352941176470588235294117647058823529411764705882352941176470588235294117647058823529411764705882352941176470588235294117647058823529411764705882352941176470588235294117647058823529411764705882352941176470588235294117647058823529411764705882352941176470588235294117647058823529411764705882352941176470588235294117647058823529411764705882352941176470588235294117647058823529411764705882352941176470588235294117647058823529411764705882352941176470588235294117647058823529411764705882352941176470588235294117647058823529411764705882352941176470588235294117647058823529411764705882352941176470588235294117647058823529411764705882352941176470588235294117647058823529411764705882352941176470588235294117647058823529411764705882352941176470588235294117647058823529411764705882352941176470588235294117647058823529411764705882352941176470588235294117647058823529411764705882352941176470588235294117647058823529411764705882352941176470588235294117647058823529411764705882352941176470588235294117647058823529411764705882352941176470588235294117647058823529411764705882352941176470588235294117647058823529411764705882352941176470588235294117647058823529411764705882352941176470588235294117647058823529411764705882352941176470588235294117647058823529411764705882352941176470588235294117647058823529411764705882352941176470588235294117647058823529411764705882352941176470588235294117647058823529411764705882352941176470588235294117647058823529411764705882352941176470588235294117647058823529411764705882352941176470588235294117647058823529411764705882352941176471"

def strCbrtC1 : String := "-0.46946116"

def strCbrtC2 : String := "1.072302"

def strCbrtC3 : String := "0.3812513"

/-- The package variable `decimalQuoC1`. -/
def decimalQuoC1 {D Err : Type} (E : Engine D Err) (fuel : Nat) :
    Option (Except Err (constWithPrecision D)) :=
  makeConstWithPrecision E fuel str48Div17

/-- The package variable `decimalQuoC2`. -/
def decimalQuoC2 {D Err : Type} (E : Engine D Err) (fuel : Nat) :
    Option (Except Err (constWithPrecision D)) :=
  makeConstWithPrecision E fuel str32Div17

/-- The package variable `decimalLn10`. -/
def decimalLn10 {D Err : Type} (E : Engine D Err) (fuel : Nat) :
    Option (Except Err (constWithPrecision D)) :=
  makeConstWithPrecision E fuel strLn10

/-- The package variable `decimalInvLn10`. -/
def decimalInvLn10 {D Err : Type} (E : Engine D Err) (fuel : Nat) :
    Option (Except Err (constWithPrecision D)) :=
  makeConstWithPrecision E fuel strInvLn10

/-- The package variables `decimalCbrtC1`, `decimalCbrtC2`, `decimalCbrtC3`. -/
def decimalCbrtC {D Err : Type} (E : Engine D Err) : List (Except Err D) :=
  [makeConst E strCbrtC1, makeConst E strCbrtC2, makeConst E strCbrtC3]

/-! ## A concrete engine -/

deriving instance DecidableEq for Except

/-- Modelled from the spec: the decimal value of the engine, declared outside
const.go: an exact base-10 number `(-1)^Negative * Coeff * 10^Exponent` with an
unbounded coefficient. -/
structure Decimal where
  Negative : Bool
  Coeff : Nat
  Exponent : Int
  deriving DecidableEq, Repr

/-- Number of decimal digits of `n`, on fuel; zero has one digit. -/
def numDigitsAux : Nat → Nat → Nat
  | 0, _ => 1
  | fuel + 1, n => if n < 10 then 1 else numDigitsAux fuel (n / 10) + 1

/-- Modelled from the spec: the significant-digit count of a coefficient, which
const.go never computes itself. -/
def numDigits (n : Nat) : Nat := numDigitsAux n n

/-- State of the literal scanner: coefficient so far, digits seen, and digits
seen after the decimal point (`none` before the point). -/
structure Scan where
  coeff : Nat
  digits : Nat
  frac : Option Nat
  deriving DecidableEq, Repr

/-- One character of the digit part of a literal. -/
def scanChar (st : Scan) (ch : Char) : Option Scan :=
  if 48 ≤ ch.toNat ∧ ch.toNat ≤ 57 then
    some { coeff := st.coeff * 10 + (ch.toNat - 48)
           digits := st.digits + 1
           frac := st.frac.map (· + 1) }
  else if ch = '.' then
    match st.frac with
    | none => some { st with frac := some 0 }
    | some _ => none
  else none

/-- The digit part of a literal, character by character. -/
def scanChars : Scan → List Char → Option Scan
  | st, [] => some st
  | st, ch :: rest =>
    match scanChar st ch with
    | none => none
    | some st1 => scanChars st1 rest

/-- Modelled from the spec: the parsing collaborator
`parse(literal) -> Result<Decimal, ParseError>`, declared outside const.go, for
literals made of an optional sign, decimal digits and at most one decimal
point (the shape of every literal of const.go). -/
def specSetString (s : String) : Except String Decimal :=
  let (neg, body) : Bool × List Char :=
    match s.toList with
    | '-' :: rest => (true, rest)
    | '+' :: rest => (false, rest)
    | cs => (false, cs)
  match scanChars { coeff := 0, digits := 0, frac := none } body with
  | none => .error ("parse mantissa: " ++ s)
  | some st =>
    if st.digits = 0 then .error ("parse mantissa: " ++ s)
    else .ok { Negative := neg, Coeff := st.coeff, Exponent := - ((st.frac.getD 0 : Nat) : Int) }

/-- Modelled from the spec: round half up to `prec` significant digits, the
exponent unbounded. A value with no more than `prec` digits is returned as it
is; the spec says nothing of precision zero, which the model leaves unrounded. -/
def roundHalfUp (prec : Nat) (d : Decimal) : Decimal :=
  let nd := numDigits d.Coeff
  if prec = 0 ∨ nd ≤ prec then d
  else
    let k := nd - prec
    let q := d.Coeff / 10 ^ k
    let r := d.Coeff % 10 ^ k
    let q1 := if 10 ^ k ≤ 2 * r then q + 1 else q
    if q1 = 10 ^ prec then
      { d with Coeff := q1 / 10, Exponent := d.Exponent + k + 1 }
    else
      { d with Coeff := q1, Exponent := d.Exponent + k }

/-- Modelled from the spec: the rounding collaborator
`round(context, input) -> Result<Decimal, RoundError>`, declared outside
const.go: round half up to `Precision` digits, and report an error when the
adjusted exponent of the result leaves `[MinExponent, MaxExponent]`. -/
def specRound (ctx : Context) (d : Decimal) : Except String Decimal :=
  match ctx.Rounding with
  | .RoundHalfUp =>
    let r := roundHalfUp ctx.Precision d
    let adj : Int := r.Exponent + (numDigits r.Coeff : Int) - 1
    if adj < ctx.MinExponent ∨ ctx.MaxExponent < adj then .error "exponent out of range"
    else .ok r

/-- Modelled from the spec: an engine made of the parser and the rounding
routine above, for given global exponent bounds. -/
def specEngine (maxExponent minExponent : Int) : Engine Decimal String :=
  { SetString := specSetString
    Round := specRound
    NumDigits := fun d => numDigits d.Coeff
    MaxExponent := maxExponent
    MinExponent := minExponent }

/-- Modelled from the spec: the engine with exponent bounds wide enough for every
literal of const.go; the spec gives the bounds no values. -/
def wideEngine : Engine Decimal String := specEngine 100000 (-100000)

/-- The engine with the exponent bounds narrowed to `[-2, 2]`, under which some
roundings report an exponent out of range. -/
def tightEngine : Engine Decimal String := specEngine 2 (-2)

/-- The value of the literal "1.5". -/
def onePointFive : Decimal := { Negative := false, Coeff := 15, Exponent := -1 }

/-- The cache of the literal "1.5": tiers of 1 and 2 digits. -/
def cacheOnePointFive : constWithPrecision Decimal :=
  { unrounded := onePointFive
    vals := [{ Negative := false, Coeff := 2, Exponent := 0 }, onePointFive] }

/-- A literal of 48 digits without a decimal point. -/
def str48Digits : String := "314159265358979323846264338327950288419716939937"

/-- The value of `str48Digits`. -/
def val48Digits : Decimal :=
  { Negative := false, Coeff := 314159265358979323846264338327950288419716939937, Exponent := 0 }

/-! ## Refinement, tier counting and numeric value -/

/-- The two reduction loops of `get` run one after the other on the state
`(precision, i)`: first by 16, then by 2. -/
def getReduce (precision i : Nat) : Nat × Nat :=
  getLoop2 (getLoop16 precision i).1 (getLoop16 precision i).2

/-- Following the spec's words: the naive loop that only shifts one bit at a
time, `while n >= 2: n /= 2, i += 1`. -/
def naiveLoop (n i : Nat) : Nat × Nat :=
  if 2 ≤ n then naiveLoop (n / 2) (i + 1) else (n, i)
termination_by n
decreasing_by omega

/-- The naive loop run for at most `fuel` iterations; `none` means the guard
still held when the fuel ran out. -/
def naiveLoopFuel : Nat → Nat → Nat → Option (Nat × Nat)
  | 0, n, i => if 2 ≤ n then none else some (n, i)
  | fuel + 1, n, i => if 2 ≤ n then naiveLoopFuel fuel (n / 2) (i + 1) else some (n, i)

/-- The number of powers of two strictly below `n`: the number of iterations of
`for p := 1; p < n; p *= 2` without wrap-around. -/
def powersOfTwoBelow (n : Nat) : Nat :=
  ((Finset.range n).filter (fun k => 2 ^ k < n)).card

/-- Modelled from the spec: the rounding collaborator taken as exact round half
up to `Precision` significant digits, which never reports an error, with the
parser of `specSetString`. -/
def exactEngine : Engine Decimal String :=
  { SetString := specSetString
    Round := fun ctx d => .ok (roundHalfUp ctx.Precision d)
    NumDigits := fun d => numDigits d.Coeff
    MaxExponent := 100000
    MinExponent := -100000 }

/-- The literal `1.11...1` with `n` digits after the decimal point; its length
is `n + 2` bytes. -/
def onesLiteral (n : Nat) : String :=
  String.mk ('1' :: '.' :: List.replicate n '1')

/-- Modelled from the spec: the number a decimal value stands for,
`(-1)^Negative * Coeff * 10^Exponent`. -/
def Decimal.value (d : Decimal) : ℚ :=
  (if d.Negative then -1 else 1) * (d.Coeff : ℚ) * (10 : ℚ) ^ d.Exponent

/-- The digits of a literal read as one integer, the decimal point skipped. -/
def digitsValue (s : String) : Nat :=
  s.toList.foldl
    (fun acc ch => if 48 ≤ ch.toNat ∧ ch.toNat ≤ 57 then acc * 10 + (ch.toNat - 48) else acc) 0

/-- The number of characters of a literal after its decimal point. -/
def fractionDigits (s : String) : Nat :=
  ((s.toList.dropWhile (fun ch => ch != '.')).drop 1).length

/-- The value of the literal "0.125". -/
def oneEighth : Decimal := { Negative := false, Coeff := 125, Exponent := -3 }

/-- The cache of the literal "0.125": tiers of 1, 2 and 4 digits. -/
def cacheOneEighth : constWithPrecision Decimal :=
  { unrounded := oneEighth
    vals := [{ Negative := false, Coeff := 1, Exponent := -1 },
             { Negative := false, Coeff := 13, Exponent := -2 }, oneEighth] }

/-! ## The index computed by `get` -/

theorem getLoop2_snd (n i : Nat) : (getLoop2 n i).2 = i + Nat.log 2 n := by
  induction n using Nat.strong_induction_on generalizing i with
  | _ n ih =>
    rw [getLoop2]
    split
    · next h =>
      rw [ih (n / 2) (by omega) (i + 1), Nat.log_div_base]
      have : 1 ≤ Nat.log 2 n := Nat.log_pos (by norm_num) h
      omega
    · next h =>
      have : Nat.log 2 n = 0 := Nat.log_of_lt (by omega)
      simp [this]

theorem log_two_div_sixteen (n : Nat) (h : 16 ≤ n) : Nat.log 2 (n / 16) + 4 = Nat.log 2 n := by
  have e : n / 16 = n / 2 / 2 / 2 / 2 := by omega
  have h4 : 4 ≤ Nat.log 2 n := by
    have := Nat.log_mono_right (b := 2) h
    have e16 : Nat.log 2 16 = 4 := by
      rw [show (16 : Nat) = 2 ^ 4 by norm_num, Nat.log_pow (by norm_num)]
    omega
  rw [e]
  simp only [Nat.log_div_base]
  omega

theorem getLoop16_snd (n i : Nat) :
    (getLoop16 n i).2 + Nat.log 2 (getLoop16 n i).1 = i + Nat.log 2 n := by
  induction n using Nat.strong_induction_on generalizing i with
  | _ n ih =>
    rw [getLoop16]
    split
    · next h =>
      rw [ih (n / 16) (by omega) (i + 4)]
      have := log_two_div_sixteen n h
      omega
    · rfl

theorem getIndex_eq (p : Nat) : getIndex p = if 1 < p then 1 + Nat.log 2 (p - 1) else 0 := by
  unfold getIndex getStart
  simp only [getLoop2_snd]
  split
  · next h =>
    have := getLoop16_snd (p - 1) 1
    simpa using this
  · next h =>
    have := getLoop16_snd p 0
    have h0 : Nat.log 2 p = 0 := Nat.log_of_lt (by omega)
    simp only at this ⊢
    omega

/-- The index computed by `get` is the least `j` with `precision ≤ 2 ^ j`. -/
theorem le_two_pow_iff_getIndex_le (p j : Nat) : p ≤ 2 ^ j ↔ getIndex p ≤ j := by
  rw [getIndex_eq]
  split
  · next h =>
    have hne : p - 1 ≠ 0 := by omega
    have := Nat.lt_pow_iff_log_lt (b := 2) (x := j) (by norm_num) hne
    constructor
    · intro hp
      have : Nat.log 2 (p - 1) < j := this.mp (by omega)
      omega
    · intro hj
      have : p - 1 < 2 ^ j := this.mpr (by omega)
      omega
  · next h =>
    have : 1 ≤ 2 ^ j := Nat.one_le_two_pow
    constructor
    · intro _; omega
    · intro _; omega


theorem getIndex_le_of_le {p q : Nat} (h : p ≤ q) : getIndex p ≤ getIndex q :=
  (le_two_pow_iff_getIndex_le p (getIndex q)).mp
    (le_trans h ((le_two_pow_iff_getIndex_le q (getIndex q)).mpr (le_refl _)))

theorem get_eq_vals_iff {D : Type} (c : constWithPrecision D) (p i : Nat) :
    c.get p = Ref.vals i ↔ getIndex p = i ∧ i < c.vals.length := by
  unfold constWithPrecision.get
  simp only
  split
  · next h => simp only [false_iff, not_and, not_lt, reduceCtorEq]; intro e; omega
  · next h => simp only [Ref.vals.injEq]; constructor
              · intro e; omega
              · intro e; exact e.1

theorem get_eq_unrounded_iff {D : Type} (c : constWithPrecision D) (p : Nat) :
    c.get p = Ref.unrounded ↔ c.vals.length ≤ getIndex p := by
  unfold constWithPrecision.get
  simp only
  split
  · next h => simp [h]
  · next h => simp [h]

theorem getLoop16Fuel_eq (fuel : Nat) : ∀ p i : Nat, p < 16 ^ (fuel + 1) →
    getLoop16Fuel fuel p i = some (getLoop16 p i) := by
  induction fuel with
  | zero =>
    intro p i hp
    rw [getLoop16Fuel, getLoop16]
    have : ¬ 16 ≤ p := by omega
    simp [this]
  | succ fuel ih =>
    intro p i hp
    rw [getLoop16Fuel, getLoop16]
    split
    · next h =>
      apply ih
      rw [pow_succ] at hp
      exact Nat.div_lt_of_lt_mul (by rw [Nat.mul_comm]; exact hp)
    · rfl

theorem getLoop2Fuel_eq (fuel : Nat) : ∀ p i : Nat, p < 2 ^ (fuel + 1) →
    getLoop2Fuel fuel p i = some (getLoop2 p i) := by
  induction fuel with
  | zero =>
    intro p i hp
    rw [getLoop2Fuel, getLoop2]
    have : ¬ 2 ≤ p := by omega
    simp [this]
  | succ fuel ih =>
    intro p i hp
    rw [getLoop2Fuel, getLoop2]
    split
    · next h =>
      apply ih
      rw [pow_succ] at hp
      exact Nat.div_lt_of_lt_mul (by rw [Nat.mul_comm]; exact hp)
    · rfl

theorem getLoop16_fst_lt (n i : Nat) : (getLoop16 n i).1 < 16 := by
  induction n using Nat.strong_induction_on generalizing i with
  | _ n ih =>
    rw [getLoop16]
    split
    · next h => exact ih (n / 16) (by omega) (i + 4)
    · next h => simp only; omega
/-! ## The ladder loop -/

theorem ladder_step_mod (p j : Nat) : p * 2 % 2 ^ 32 * 2 ^ j % 2 ^ 32 = p * 2 ^ (j + 1) % 2 ^ 32 := by
  rw [Nat.mod_mul_mod, pow_succ]
  congr 1
  ring

/-- What a normal exit of the ladder loop says about the entries it appended. -/
theorem ladderLoop_ok_inv {D Err : Type} (E : Engine D Err) (u : D) (m : Nat) :
    ∀ (fuel p : Nat) (vals out : List D), p < 2 ^ 32 →
      ladderLoop E u m fuel p vals = some (.ok out) →
      ∃ ext : List D, out = vals ++ ext ∧
        (∀ j d, ext[j]? = some d →
          p * 2 ^ j % 2 ^ 32 < m ∧
            E.Round (ladderContext E (p * 2 ^ j % 2 ^ 32)) u = .ok d) ∧
        m ≤ p * 2 ^ ext.length % 2 ^ 32 := by
  intro fuel
  induction fuel with
  | zero =>
    intro p vals out hp h
    rw [ladderLoop] at h
    split at h
    · simp at h
    · next hg =>
      simp only [Option.some.injEq, Except.ok.injEq] at h
      refine ⟨[], by simp [h], by simp, ?_⟩
      simp only [List.length_nil, pow_zero, mul_one, Nat.mod_eq_of_lt hp]
      omega
  | succ fuel ih =>
    intro p vals out hp h
    rw [ladderLoop] at h
    split at h
    · next hg =>
      split at h
      · simp at h
      · next d hd =>
        obtain ⟨ext, hout, htier, hexit⟩ := ih (p * 2 % 2 ^ 32) (vals ++ [d]) out
          (Nat.mod_lt _ (by norm_num)) h
        refine ⟨d :: ext, by simp [hout], ?_, ?_⟩
        · intro j x hj
          cases j with
          | zero =>
            simp only [List.getElem?_cons_zero, Option.some.injEq] at hj
            subst hj
            simp only [pow_zero, mul_one, Nat.mod_eq_of_lt hp]
            exact ⟨hg, hd⟩
          | succ j =>
            simp only [List.getElem?_cons_succ] at hj
            have := htier j x hj
            rwa [ladder_step_mod] at this
        · rw [List.length_cons, ← ladder_step_mod]
          exact hexit
    · next hg =>
      simp only [Option.some.injEq, Except.ok.injEq] at h
      refine ⟨[], by simp [h], by simp, ?_⟩
      simp only [List.length_nil, pow_zero, mul_one, Nat.mod_eq_of_lt hp]
      omega

/-- Running the ladder loop through a run of successful roundings. -/
theorem ladderLoop_run {D Err : Type} (E : Engine D Err) (u : D) (m : Nat) :
    ∀ (ext : List D) (fuel p : Nat) (vals : List D), p < 2 ^ 32 →
      (∀ j d, ext[j]? = some d →
        p * 2 ^ j % 2 ^ 32 < m ∧ E.Round (ladderContext E (p * 2 ^ j % 2 ^ 32)) u = .ok d) →
      ladderLoop E u m (ext.length + fuel) p vals =
        ladderLoop E u m fuel (p * 2 ^ ext.length % 2 ^ 32) (vals ++ ext) := by
  intro ext
  induction ext with
  | nil =>
    intro fuel p vals hp _
    simp only [List.length_nil, pow_zero, mul_one, Nat.zero_add, List.append_nil,
      Nat.mod_eq_of_lt hp]
  | cons d ext ih =>
    intro fuel p vals hp h
    have h0 := h 0 d (by simp)
    simp only [pow_zero, mul_one, Nat.mod_eq_of_lt hp] at h0
    have e : (d :: ext).length + fuel = (ext.length + fuel) + 1 := by
      simp only [List.length_cons]; omega
    rw [e, ladderLoop, if_pos h0.1]
    simp only [h0.2]
    rw [ih fuel (p * 2 % 2 ^ 32) (vals ++ [d]) (Nat.mod_lt _ (by norm_num))]
    · rw [ladder_step_mod, List.length_cons]
      simp
    · intro j x hj
      have := h (j + 1) x (by simpa using hj)
      rwa [ladder_step_mod]


theorem two_pow_mod (j : Nat) : 2 ^ j % 2 ^ 32 = if j < 32 then 2 ^ j else 0 := by
  split
  · next h => exact Nat.mod_eq_of_lt (Nat.pow_lt_pow_right (by norm_num) h)
  · next h =>
    exact Nat.mod_eq_zero_of_dvd (Nat.pow_dvd_pow 2 (by omega))

/-- What a returned cache says about the parse and the roundings that built it. -/
theorem makeConstWithPrecision_ok_inv {D Err : Type} (E : Engine D Err) (fuel : Nat)
    (s : String) (c : constWithPrecision D)
    (h : makeConstWithPrecision E fuel s = some (.ok c)) :
    E.SetString s = .ok c.unrounded ∧
      (∀ j d, c.vals[j]? = some d →
        2 ^ j % 2 ^ 32 < s.utf8ByteSize % 2 ^ 32 ∧
          E.Round (ladderContext E (2 ^ j % 2 ^ 32)) c.unrounded = .ok d) ∧
      s.utf8ByteSize % 2 ^ 32 ≤ 2 ^ c.vals.length % 2 ^ 32 := by
  unfold makeConstWithPrecision at h
  split at h
  · simp at h
  · next u hu =>
    simp only at h
    split at h
    · simp at h
    · simp at h
    · next vals hl =>
      simp only [Option.some.injEq, Except.ok.injEq] at h
      subst h
      obtain ⟨ext, hout, htier, hexit⟩ :=
        ladderLoop_ok_inv E u (s.utf8ByteSize % 2 ^ 32) fuel 1 [] vals (by norm_num) hl
      simp only [List.nil_append] at hout
      subst hout
      simp only [one_mul] at htier hexit
      exact ⟨hu, htier, hexit⟩

/-- The ladder of a returned cache: at most 31 tiers, tier `j` exists exactly when
`2 ^ j` is below the loop bound, and it is the rounding to `2 ^ j` digits. -/
theorem makeConstWithPrecision_shape {D Err : Type} (E : Engine D Err) (fuel : Nat)
    (s : String) (c : constWithPrecision D)
    (h : makeConstWithPrecision E fuel s = some (.ok c)) :
    c.vals.length ≤ 31 ∧
      (∀ j, j < c.vals.length ↔ 2 ^ j < s.utf8ByteSize % 2 ^ 32) ∧
      (∀ j d, c.vals[j]? = some d →
        E.Round (ladderContext E (2 ^ j)) c.unrounded = .ok d) := by
  obtain ⟨_, htier, hexit⟩ := makeConstWithPrecision_ok_inv E fuel s c h
  have hm : s.utf8ByteSize % 2 ^ 32 < 2 ^ 32 := Nat.mod_lt _ (by norm_num)
  have hlen : c.vals.length ≤ 31 := by
    by_contra hc
    have h31 : 31 < c.vals.length := by omega
    have := (htier 31 (c.vals[31]) (by simp [List.getElem?_eq_getElem h31])).1
    rw [two_pow_mod, if_neg (by omega)] at hexit
    omega
  have hexit2 : s.utf8ByteSize % 2 ^ 32 ≤ 2 ^ c.vals.length := by
    rw [two_pow_mod, if_pos (by omega)] at hexit
    exact hexit
  refine ⟨hlen, ?_, ?_⟩
  · intro j
    constructor
    · intro hj
      have := (htier j (c.vals[j]) (by simp [List.getElem?_eq_getElem hj])).1
      rwa [two_pow_mod, if_pos (by omega)] at this
    · intro hj
      by_contra hc
      have : 2 ^ c.vals.length ≤ 2 ^ j := Nat.pow_le_pow_right (by norm_num) (by omega)
      omega
  · intro j d hj
    have hjl : j < c.vals.length := by
      by_contra hc
      rw [List.getElem?_eq_none (by omega)] at hj
      simp at hj
    have := (htier j d hj).2
    rwa [two_pow_mod, if_pos (by omega)] at this

theorem ladderLoop_exit {D Err : Type} (E : Engine D Err) (u : D) (m fuel p : Nat)
    (vals : List D) (h : ¬ p < m) : ladderLoop E u m fuel p vals = some (.ok vals) := by
  cases fuel <;> simp [ladderLoop, h]

/-- The ladder loop returns once the roundings of all tiers below the bound
succeed. -/
theorem makeConstWithPrecision_returns {D Err : Type} (E : Engine D Err) (fuel : Nat)
    (s : String) (u : D) (d : Nat → D) (n : Nat)
    (hparse : E.SetString s = .ok u)
    (hn : n ≤ 31)
    (hbelow : ∀ j, j < n → 2 ^ j < s.utf8ByteSize % 2 ^ 32)
    (hexit : s.utf8ByteSize % 2 ^ 32 ≤ 2 ^ n)
    (hround : ∀ j, j < n → E.Round (ladderContext E (2 ^ j)) u = .ok (d j))
    (hfuel : n ≤ fuel) :
    makeConstWithPrecision E fuel s =
      some (.ok { unrounded := u, vals := (List.range n).map d }) := by
  unfold makeConstWithPrecision
  simp only [hparse]
  have hrun := ladderLoop_run E u (s.utf8ByteSize % 2 ^ 32) ((List.range n).map d)
    (fuel - n) 1 [] (by norm_num) (by
      intro j x hj
      have hjn : j < n := by
        by_contra hc
        rw [List.getElem?_eq_none (by simp; omega)] at hj
        simp at hj
      rw [List.getElem?_eq_getElem (by simp; omega)] at hj
      simp only [List.getElem_map, List.getElem_range, Option.some.injEq] at hj
      subst hj
      rw [one_mul, two_pow_mod, if_pos (by omega)]
      exact ⟨hbelow j hjn, hround j hjn⟩)
  simp only [List.length_map, List.length_range, List.nil_append, one_mul] at hrun
  rw [show n + (fuel - n) = fuel by omega] at hrun
  rw [hrun, ladderLoop_exit]
  rw [two_pow_mod, if_pos (by omega)]
  omega

theorem getIndex_eq_clog (p : Nat) : getIndex p = Nat.clog 2 p := by
  apply le_antisymm
  · exact (le_two_pow_iff_getIndex_le p _).mp (Nat.le_pow_clog (by norm_num) p)
  · exact (Nat.le_pow_iff_clog_le (by norm_num)).mp
      ((le_two_pow_iff_getIndex_le p _).mpr (le_refl _))

/-! ## The claims -/

/-- C1: for every cache `c` and every precision `p` with `1 ≤ p < 2^32`, if `i` is
the least natural number with `p ≤ 2^i` (so `i = ceil(log2 p)` and
`2^(i-1) < p` unless `i = 0`) and `i < len(c.vals)`, then `c.get(p)` returns
exactly the entry `c.vals[i]`. -/
theorem get_returns_least_tier {D : Type} (c : constWithPrecision D) (p i : Nat)
    (_hp1 : 1 ≤ p) (_hp32 : p < 2 ^ 32)
    (hi : p ≤ 2 ^ i) (hleast : ∀ j, p ≤ 2 ^ j → i ≤ j)
    (hlen : i < c.vals.length) :
    c.get p = Ref.vals i ∧ c.load (c.get p) = some (c.vals.get ⟨i, hlen⟩) ∧
      i = Nat.clog 2 p ∧ (i = 0 ∨ 2 ^ (i - 1) < p) := by
  have hidx : getIndex p = i :=
    le_antisymm ((le_two_pow_iff_getIndex_le p i).mp hi)
      (hleast _ ((le_two_pow_iff_getIndex_le p _).mpr (le_refl _)))
  have hget : c.get p = Ref.vals i := (get_eq_vals_iff c p i).mpr ⟨hidx, hlen⟩
  refine ⟨hget, ?_, ?_, ?_⟩
  · rw [hget]
    simp [constWithPrecision.load, List.getElem?_eq_getElem hlen]
  · rw [← hidx, getIndex_eq_clog]
  · by_cases h0 : i = 0
    · exact Or.inl h0
    · right
      by_contra hc
      have := hleast (i - 1) (by omega)
      omega

theorem get_returns_least_tier_witness :
    (1 ≤ 3 ∧ 3 < 2 ^ 32 ∧ 3 ≤ 2 ^ 2 ∧ (∀ j, 3 ≤ 2 ^ j → 2 ≤ j) ∧
      2 < (constWithPrecision.mk 7 [10, 20, 30, 40] : constWithPrecision Nat).vals.length) ∧
    ((constWithPrecision.mk 7 [10, 20, 30, 40] : constWithPrecision Nat).get 3 = Ref.vals 2 ∧
      (constWithPrecision.mk 7 [10, 20, 30, 40] : constWithPrecision Nat).load
        ((constWithPrecision.mk 7 [10, 20, 30, 40] : constWithPrecision Nat).get 3) = some 30) := by
  have hleast : ∀ j, 3 ≤ 2 ^ j → 2 ≤ j := by
    intro j hj
    by_contra hc
    have : j = 0 ∨ j = 1 := by omega
    rcases this with rfl | rfl <;> simp at hj
  have h := get_returns_least_tier (constWithPrecision.mk 7 [10, 20, 30, 40]) 3 2
    (by decide) (by norm_num) (by decide) hleast (by decide)
  exact ⟨⟨by decide, by norm_num, by decide, hleast, by decide⟩, h.1, h.2.1⟩

/-- C3: for every cache `c` and every precision `p` with `1 ≤ p < 2^32`,
`c.get(p)` returns the unrounded value if and only if
`ceil(log2 p) ≥ len(c.vals)`, that is exactly when the ladder is empty or `p`
exceeds the precision `2^(len(c.vals)-1)` of the highest cached tier; in
particular a precision exceeding every cached tier yields the unrounded
literal. -/
theorem get_unrounded_iff {D : Type} (c : constWithPrecision D) (p : Nat)
    (_hp1 : 1 ≤ p) (_hp32 : p < 2 ^ 32) :
    (c.get p = Ref.unrounded ↔ c.vals.length ≤ Nat.clog 2 p) ∧
      (c.get p = Ref.unrounded ↔ (c.vals = [] ∨ 2 ^ (c.vals.length - 1) < p)) ∧
      ((∀ i, i < c.vals.length → 2 ^ i < p) → c.load (c.get p) = some c.unrounded) := by
  have h1 : c.get p = Ref.unrounded ↔ c.vals.length ≤ Nat.clog 2 p := by
    rw [get_eq_unrounded_iff, getIndex_eq_clog]
  have h2 : c.get p = Ref.unrounded ↔ (c.vals = [] ∨ 2 ^ (c.vals.length - 1) < p) := by
    rw [get_eq_unrounded_iff]
    constructor
    · intro h
      by_cases he : c.vals = []
      · exact Or.inl he
      · right
        have hpos : 0 < c.vals.length := List.length_pos.mpr he
        by_contra hc
        have := (le_two_pow_iff_getIndex_le p (c.vals.length - 1)).mp (by omega)
        omega
    · rintro (he | hlt)
      · simp [he]
      · by_contra hc
        have hle : getIndex p ≤ c.vals.length - 1 := by omega
        have := (le_two_pow_iff_getIndex_le p (c.vals.length - 1)).mpr hle
        omega
  refine ⟨h1, h2, ?_⟩
  intro hall
  have : c.get p = Ref.unrounded := by
    rw [h2]
    by_cases he : c.vals = []
    · exact Or.inl he
    · right
      exact hall _ (by have := List.length_pos.mpr he; omega)
  rw [this]
  rfl

theorem get_unrounded_iff_witness :
    (1 ≤ 5 ∧ 5 < 2 ^ 32) ∧
      ((constWithPrecision.mk 7 [10, 20, 30] : constWithPrecision Nat).get 5 = Ref.unrounded ↔
        (constWithPrecision.mk 7 [10, 20, 30] : constWithPrecision Nat).vals.length
          ≤ Nat.clog 2 5) :=
  ⟨⟨by decide, by norm_num⟩,
    (get_unrounded_iff (constWithPrecision.mk 7 [10, 20, 30]) 5 (by decide) (by norm_num)).1⟩

/-- C7: `get` is monotone in the requested precision: for every cache and all
precisions `p1 < p2 < 2^32` the ladder index computed for `p1` is at most the
index computed for `p2`; so if `get(p2)` returns the tier `vals[j]` then
`get(p1)` returns a tier `vals[i]` with `i ≤ j`, and if `get(p1)` returns
`unrounded` then so does `get(p2)`. -/
theorem get_monotone {D : Type} (c : constWithPrecision D) (p1 p2 : Nat)
    (h12 : p1 < p2) (_hp32 : p2 < 2 ^ 32) :
    getIndex p1 ≤ getIndex p2 ∧
      (∀ j, c.get p2 = Ref.vals j → ∃ i, i ≤ j ∧ c.get p1 = Ref.vals i) ∧
      (c.get p1 = Ref.unrounded → c.get p2 = Ref.unrounded) := by
  have hmono : getIndex p1 ≤ getIndex p2 := getIndex_le_of_le (Nat.le_of_lt h12)
  refine ⟨hmono, ?_, ?_⟩
  · intro j hj
    obtain ⟨hj1, hj2⟩ := (get_eq_vals_iff c p2 j).mp hj
    exact ⟨getIndex p1, by omega, (get_eq_vals_iff c p1 _).mpr ⟨rfl, by omega⟩⟩
  · intro h
    rw [get_eq_unrounded_iff] at h ⊢
    omega

theorem get_monotone_witness :
    (3 < 9 ∧ 9 < 2 ^ 32) ∧ getIndex 3 ≤ getIndex 9 ∧
      ((constWithPrecision.mk 7 [10, 20, 30] : constWithPrecision Nat).get 3 = Ref.unrounded →
        (constWithPrecision.mk 7 [10, 20, 30] : constWithPrecision Nat).get 9 = Ref.unrounded) :=
  ⟨⟨by decide, by norm_num⟩,
    (get_monotone (constWithPrecision.mk 7 [10, 20, 30]) 3 9 (by decide) (by norm_num)).1,
    (get_monotone (constWithPrecision.mk 7 [10, 20, 30]) 3 9 (by decide) (by norm_num)).2.2⟩

/-- C8: degenerate precisions: for every cache, `get(0)` returns the same entry as
`get(1)`; for every cache with a non-empty ladder both return `vals[0]`; and in
a cache built by `makeConstWithPrecision` (whose ladder is non-empty when the
literal has length `2 ≤ L < 2^32`) that entry is the literal rounded to one
significant digit. -/
theorem get_degenerate {D Err : Type} (E : Engine D Err) (c : constWithPrecision D) :
    c.get 0 = c.get 1 ∧
      (c.vals ≠ [] →
        c.get 1 = Ref.vals 0 ∧ c.get 0 = Ref.vals 0 ∧ c.load (c.get 1) = c.vals.head?) ∧
      (∀ fuel s, makeConstWithPrecision E fuel s = some (.ok c) →
        (2 ≤ s.utf8ByteSize → s.utf8ByteSize < 2 ^ 32 → c.vals ≠ []) ∧
        (c.vals ≠ [] → ∃ d,
          E.Round { Precision := 1, Rounding := Rounder.RoundHalfUp,
                    MaxExponent := E.MaxExponent, MinExponent := E.MinExponent }
            c.unrounded = .ok d ∧
          c.load (c.get 1) = some d ∧ c.load (c.get 0) = some d)) := by
  have h0 : getIndex 0 = 0 := by rw [getIndex_eq]; simp
  have h1 : getIndex 1 = 0 := by rw [getIndex_eq]; simp
  have h01 : c.get 0 = c.get 1 := by
    unfold constWithPrecision.get
    rw [h0, h1]
  have hne : c.vals ≠ [] → c.get 1 = Ref.vals 0 := by
    intro he
    exact (get_eq_vals_iff c 1 0).mpr ⟨h1, List.length_pos.mpr he⟩
  refine ⟨h01, ?_, ?_⟩
  · intro he
    refine ⟨hne he, by rw [h01]; exact hne he, ?_⟩
    rw [hne he]
    cases hv : c.vals with
    | nil => exact absurd hv he
    | cons x xs => simp [constWithPrecision.load, hv]
  · intro fuel s hb
    obtain ⟨_, hiff, htier⟩ := makeConstWithPrecision_shape E fuel s c hb
    refine ⟨?_, ?_⟩
    · intro h2 h32 he
      have := (hiff 0).mpr (by rw [Nat.mod_eq_of_lt h32]; omega)
      rw [he] at this
      simp at this
    · intro he
      have hpos : 0 < c.vals.length := List.length_pos.mpr he
      refine ⟨c.vals[0], ?_, ?_, ?_⟩
      · exact htier 0 _ (by simp [List.getElem?_eq_getElem hpos])
      · rw [hne he]; simp [constWithPrecision.load, List.getElem?_eq_getElem hpos]
      · rw [h01, hne he]; simp [constWithPrecision.load, List.getElem?_eq_getElem hpos]

/-- C10: `get` is total and free of errors: for every cache (also one with an
empty ladder) and every `uint32` precision, the first reduction loop ends
within 7 iterations and the second within 3, the computed index is at most
32, and `get` yields either `unrounded` or a tier `vals[i]` with
`i < len(c.vals)`, so the place it returns can always be read. -/
theorem get_total {D : Type} (c : constWithPrecision D) (p : Nat) (hp : p < 2 ^ 32) :
    getLoop16Fuel 7 (getStart p).1 (getStart p).2 =
        some (getLoop16 (getStart p).1 (getStart p).2) ∧
      getLoop2Fuel 3 (getLoop16 (getStart p).1 (getStart p).2).1
          (getLoop16 (getStart p).1 (getStart p).2).2 =
        some (getLoop2 (getLoop16 (getStart p).1 (getStart p).2).1
          (getLoop16 (getStart p).1 (getStart p).2).2) ∧
      getIndex p ≤ 32 ∧
      (c.get p = Ref.unrounded ∨ ∃ i, i < c.vals.length ∧ c.get p = Ref.vals i) ∧
      (c.load (c.get p)).isSome = true := by
  have hstart : (getStart p).1 < 16 ^ (7 + 1) := by
    unfold getStart
    split <;> simp only <;> omega
  have hcases : c.get p = Ref.unrounded ∨ ∃ i, i < c.vals.length ∧ c.get p = Ref.vals i := by
    by_cases h : c.vals.length ≤ getIndex p
    · exact Or.inl ((get_eq_unrounded_iff c p).mpr h)
    · exact Or.inr ⟨getIndex p, by omega, (get_eq_vals_iff c p _).mpr ⟨rfl, by omega⟩⟩
  refine ⟨getLoop16Fuel_eq 7 _ _ hstart, ?_, ?_, hcases, ?_⟩
  · apply getLoop2Fuel_eq
    have := getLoop16_fst_lt (getStart p).1 (getStart p).2
    omega
  · exact (le_two_pow_iff_getIndex_le p 32).mp (Nat.le_of_lt hp)
  · rcases hcases with h | ⟨i, hi, h⟩
    · rw [h]; rfl
    · rw [h]; simp [constWithPrecision.load, List.getElem?_eq_getElem hi]

theorem get_total_witness :
    4294967295 < 2 ^ 32 ∧ getIndex 4294967295 ≤ 32 ∧
      ((constWithPrecision.mk 7 [] : constWithPrecision Nat).load
        ((constWithPrecision.mk 7 [] : constWithPrecision Nat).get 4294967295)).isSome = true :=
  ⟨by norm_num,
    (get_total (constWithPrecision.mk 7 []) 4294967295 (by norm_num)).2.2.1,
    (get_total (constWithPrecision.mk 7 []) 4294967295 (by norm_num)).2.2.2.2⟩

/-- C4: for every literal `s` that parses, with `L = len(s) ≤ 2^31` and the
rounding of every tier below `L` succeeding with result `d i`,
`makeConstWithPrecision(s)` returns a cache whose `unrounded` is the parsed
value and whose `vals` has exactly as many entries as there are powers of two
strictly below `L` (that is `ceil(log2 L)`), and `vals[i]` is the result of
`Round` applied to `unrounded` under the context with `Precision = 2^i`,
`Rounding = RoundHalfUp` and the global exponent bounds. -/
theorem makeConstWithPrecision_ladder {D Err : Type} (E : Engine D Err) (fuel : Nat)
    (s : String) (u : D) (d : Nat → D)
    (hparse : E.SetString s = .ok u)
    (hL : s.utf8ByteSize ≤ 2 ^ 31)
    (hround : ∀ i, 2 ^ i < s.utf8ByteSize →
      E.Round { Precision := 2 ^ i, Rounding := Rounder.RoundHalfUp,
                MaxExponent := E.MaxExponent, MinExponent := E.MinExponent } u = .ok (d i))
    (hfuel : 31 ≤ fuel) :
    ∃ c, makeConstWithPrecision E fuel s = some (.ok c) ∧ c.unrounded = u ∧
      c.vals.length = ((Finset.range s.utf8ByteSize).filter
        (fun k => 2 ^ k < s.utf8ByteSize)).card ∧
      c.vals.length = Nat.clog 2 s.utf8ByteSize ∧
      (∀ i, i < c.vals.length ↔ 2 ^ i < s.utf8ByteSize) ∧
      (∀ i, i < c.vals.length → c.vals[i]? = some (d i) ∧
        E.Round { Precision := 2 ^ i, Rounding := Rounder.RoundHalfUp,
                  MaxExponent := E.MaxExponent, MinExponent := E.MinExponent }
          c.unrounded = .ok (d i)) := by
  have hmod : s.utf8ByteSize % 2 ^ 32 = s.utf8ByteSize := Nat.mod_eq_of_lt (by omega)
  have hiff : ∀ i, i < Nat.clog 2 s.utf8ByteSize ↔ 2 ^ i < s.utf8ByteSize := fun i =>
    (Nat.pow_lt_iff_lt_clog (by norm_num)).symm
  have hn : Nat.clog 2 s.utf8ByteSize ≤ 31 := (Nat.le_pow_iff_clog_le (by norm_num)).mp hL
  have hret := makeConstWithPrecision_returns E fuel s u d (Nat.clog 2 s.utf8ByteSize) hparse hn
    (fun j hj => by rw [hmod]; exact (hiff j).mp hj)
    (by rw [hmod]; exact Nat.le_pow_clog (by norm_num) _)
    (fun j hj => hround j ((hiff j).mp hj)) (by omega)
  refine ⟨_, hret, rfl, ?_, by simp, ?_, ?_⟩
  · simp only [List.length_map, List.length_range]
    have : (Finset.range s.utf8ByteSize).filter (fun k => 2 ^ k < s.utf8ByteSize) =
        Finset.range (Nat.clog 2 s.utf8ByteSize) := by
      ext k
      simp only [Finset.mem_filter, Finset.mem_range, hiff]
      constructor
      · exact fun h => h.2
      · intro h
        exact ⟨lt_trans (Nat.lt_two_pow k) h, h⟩
    rw [this, Finset.card_range]
  · intro i
    simp only [List.length_map, List.length_range]
    exact hiff i
  · intro i hi
    simp only [List.length_map, List.length_range] at hi
    refine ⟨?_, hround i ((hiff i).mp hi)⟩
    rw [List.getElem?_eq_getElem (by simp; exact hi)]
    simp

/-- C9: for every literal of string length 48 or 49 (48 significant digits,
without or with a decimal point) that parses and whose six roundings succeed
with results `d 0 .. d 5` at precisions 1, 2, 4, 8, 16, 32,
`makeConstWithPrecision` builds exactly these six tiers at indices 0..5;
`get(20)` returns `vals[5]`, and `get(p)` returns `unrounded` for every
`p ≥ 48`. -/
theorem ladder_of_48_digits {D Err : Type} (E : Engine D Err) (fuel : Nat)
    (s : String) (u : D) (d : Nat → D)
    (hparse : E.SetString s = .ok u)
    (hL : s.utf8ByteSize = 48 ∨ s.utf8ByteSize = 49)
    (hround : ∀ i, i < 6 →
      E.Round { Precision := 2 ^ i, Rounding := Rounder.RoundHalfUp,
                MaxExponent := E.MaxExponent, MinExponent := E.MinExponent } u = .ok (d i))
    (hfuel : 6 ≤ fuel) :
    ∃ c, makeConstWithPrecision E fuel s = some (.ok c) ∧ c.unrounded = u ∧
      c.vals = [d 0, d 1, d 2, d 3, d 4, d 5] ∧
      c.get 20 = Ref.vals 5 ∧ c.load (c.get 20) = some (d 5) ∧
      (∀ p, 48 ≤ p → c.get p = Ref.unrounded ∧ c.load (c.get p) = some u) := by
  have hmod : s.utf8ByteSize % 2 ^ 32 = s.utf8ByteSize := Nat.mod_eq_of_lt (by omega)
  have hret := makeConstWithPrecision_returns E fuel s u d 6 hparse (by omega)
    (fun j hj => by
      rw [hmod]
      have : 2 ^ j ≤ 2 ^ 5 := Nat.pow_le_pow_right (by norm_num) (by omega)
      omega)
    (by rw [hmod]; norm_num; omega)
    hround hfuel
  have h20 : getIndex 20 = 5 := by
    apply le_antisymm
    · exact (le_two_pow_iff_getIndex_le 20 5).mp (by norm_num)
    · by_contra hc
      have := (le_two_pow_iff_getIndex_le 20 4).mpr (by omega)
      omega
  refine ⟨_, hret, rfl, rfl, ?_, ?_, ?_⟩
  · exact (get_eq_vals_iff _ 20 5).mpr ⟨h20, by simp⟩
  · rw [(get_eq_vals_iff _ 20 5).mpr ⟨h20, by simp⟩]
    rfl
  · intro p hp
    have hu : ({ unrounded := u, vals := (List.range 6).map d } :
        constWithPrecision D).get p = Ref.unrounded := by
      rw [get_eq_unrounded_iff]
      simp only [List.length_map, List.length_range]
      by_contra hc
      have := (le_two_pow_iff_getIndex_le p 5).mpr (by omega)
      omega
    rw [hu]
    exact ⟨rfl, rfl⟩

/-- C5, as amended: every tier of a ladder built by `makeConstWithPrecision(s)`
has a precision `2^i` strictly below the length of the literal string (the
loop bound), and the ladder has at most 31 tiers. -/
theorem ladder_below_string_length {D Err : Type} (E : Engine D Err) (fuel : Nat)
    (s : String) (c : constWithPrecision D)
    (hbuilt : makeConstWithPrecision E fuel s = some (.ok c)) :
    (∀ i, i < c.vals.length → 2 ^ i < s.utf8ByteSize) ∧
      (c.vals ≠ [] → 2 ^ (c.vals.length - 1) < s.utf8ByteSize) ∧
      c.vals.length ≤ 31 := by
  obtain ⟨hlen, hiff, _⟩ := makeConstWithPrecision_shape E fuel s c hbuilt
  have hall : ∀ i, i < c.vals.length → 2 ^ i < s.utf8ByteSize := fun i hi =>
    lt_of_lt_of_le ((hiff i).mp hi) (Nat.mod_le _ _)
  refine ⟨hall, ?_, hlen⟩
  intro he
  exact hall _ (by have := List.length_pos.mpr he; omega)

/-- C6: construction is fail-fast. If parsing `s` returns an error, `makeConst(s)`
and `makeConstWithPrecision(s)` panic with that error. If parsing succeeds, the
loop reaches iteration `k`, the roundings before it succeed and the rounding of
iteration `k` returns an error, `makeConstWithPrecision(s)` panics with that
error. Conversely a cache is returned only when the parse succeeded and the
rounding of every tier below the loop bound succeeded, each tier holding its
result. -/
theorem construction_fail_fast {D Err : Type} (E : Engine D Err) (s : String) :
    (∀ e, E.SetString s = .error e →
      makeConst E s = .error e ∧ ∀ fuel, makeConstWithPrecision E fuel s = some (.error e)) ∧
    (∀ u e k, E.SetString s = .ok u →
      (∀ j, j ≤ k → 2 ^ j % 2 ^ 32 < s.utf8ByteSize % 2 ^ 32) →
      (∀ j, j < k → ∃ d, E.Round (ladderContext E (2 ^ j % 2 ^ 32)) u = .ok d) →
      E.Round (ladderContext E (2 ^ k % 2 ^ 32)) u = .error e →
      ∀ fuel, k < fuel → makeConstWithPrecision E fuel s = some (.error e)) ∧
    (∀ fuel c, makeConstWithPrecision E fuel s = some (.ok c) →
      E.SetString s = .ok c.unrounded ∧ makeConst E s = .ok c.unrounded ∧
      (∀ i, 2 ^ i < s.utf8ByteSize % 2 ^ 32 → ∃ d, c.vals[i]? = some d ∧
        E.Round (ladderContext E (2 ^ i)) c.unrounded = .ok d) ∧
      (∀ i d, c.vals[i]? = some d →
        E.Round (ladderContext E (2 ^ i)) c.unrounded = .ok d)) := by
  refine ⟨?_, ?_, ?_⟩
  · intro e he
    refine ⟨by simp [makeConst, he], fun fuel => by simp [makeConstWithPrecision, he]⟩
  · intro u e k hparse hguard hok herr fuel hfuel
    haveI : Nonempty D := ⟨u⟩
    choose! d hd using hok
    have hrun := ladderLoop_run E u (s.utf8ByteSize % 2 ^ 32) ((List.range k).map d)
      (fuel - k) 1 [] (by norm_num) (by
        intro j x hj
        have hjk : j < k := by
          by_contra hc
          rw [List.getElem?_eq_none (by simp; omega)] at hj
          simp at hj
        rw [List.getElem?_eq_getElem (by simp; omega)] at hj
        simp only [List.getElem_map, List.getElem_range, Option.some.injEq] at hj
        subst hj
        rw [one_mul]
        exact ⟨hguard j (by omega), hd j hjk⟩)
    simp only [List.length_map, List.length_range, List.nil_append, one_mul] at hrun
    rw [show k + (fuel - k) = fuel by omega] at hrun
    obtain ⟨f, hf⟩ : ∃ f, fuel - k = f + 1 := ⟨fuel - k - 1, by omega⟩
    rw [hf, ladderLoop, if_pos (hguard k (le_refl _)), herr] at hrun
    simp only at hrun
    unfold makeConstWithPrecision
    simp only [hparse, hrun]
  · intro fuel c hb
    obtain ⟨hparse, _, _⟩ := makeConstWithPrecision_ok_inv E fuel s c hb
    obtain ⟨_, hiff, htier⟩ := makeConstWithPrecision_shape E fuel s c hb
    refine ⟨hparse, by simp [makeConst, hparse], ?_, htier⟩
    intro i hi
    have hlt : i < c.vals.length := (hiff i).mpr hi
    exact ⟨c.vals[i], by simp [List.getElem?_eq_getElem hlt],
      htier i _ (by simp [List.getElem?_eq_getElem hlt])⟩

theorem makeConstWithPrecision_ladder_witness :
    (wideEngine.SetString "1.5" = .ok onePointFive ∧ ("1.5" : String).utf8ByteSize ≤ 2 ^ 31 ∧
      31 ≤ 31) ∧
    ∃ c, makeConstWithPrecision wideEngine 31 "1.5" = some (.ok c) ∧
      c.unrounded = onePointFive ∧
      c.vals.length = Nat.clog 2 ("1.5" : String).utf8ByteSize ∧
      (∀ i, i < c.vals.length → c.vals[i]? = some (roundHalfUp (2 ^ i) onePointFive)) := by
  have hround : ∀ i, 2 ^ i < ("1.5" : String).utf8ByteSize →
      wideEngine.Round { Precision := 2 ^ i, Rounding := Rounder.RoundHalfUp,
                         MaxExponent := wideEngine.MaxExponent,
                         MinExponent := wideEngine.MinExponent } onePointFive =
        .ok (roundHalfUp (2 ^ i) onePointFive) := by
    intro i hi
    have h3 : ("1.5" : String).utf8ByteSize = 3 := by decide
    rw [h3] at hi
    have hi2 : i < 2 := by
      by_contra hc
      have : 2 ^ 2 ≤ 2 ^ i := Nat.pow_le_pow_right (by norm_num) (by omega)
      omega
    interval_cases i <;> decide
  obtain ⟨c, hb, hu, _, hlen, _, htier⟩ :=
    makeConstWithPrecision_ladder wideEngine 31 "1.5" onePointFive
      (fun i => roundHalfUp (2 ^ i) onePointFive) (by decide) (by decide) hround (by decide)
  exact ⟨⟨by decide, by decide, by decide⟩, c, hb, hu, hlen, fun i hi => (htier i hi).1⟩

/-- C5 fails as stated: the ladder of the literal "1.5" (two significant digits,
string length 3) has a tier of precision `2^1 = 2`, which is not strictly below
the digit count 2 of the literal. -/
theorem ladder_reaches_digit_count :
    wideEngine.SetString "1.5" = .ok onePointFive ∧
      makeConstWithPrecision wideEngine 8 "1.5" = some (.ok cacheOnePointFive) ∧
      wideEngine.NumDigits cacheOnePointFive.unrounded = 2 ∧
      1 < cacheOnePointFive.vals.length ∧
      ¬ 2 ^ 1 < wideEngine.NumDigits cacheOnePointFive.unrounded := by
  decide

theorem ladder_below_string_length_witness :
    makeConstWithPrecision wideEngine 8 "1.5" = some (.ok cacheOnePointFive) ∧
      (∀ i, i < cacheOnePointFive.vals.length → 2 ^ i < ("1.5" : String).utf8ByteSize) :=
  ⟨by decide,
    (ladder_below_string_length wideEngine 8 "1.5" cacheOnePointFive (by decide)).1⟩

theorem construction_fail_fast_witness :
    (wideEngine.SetString "1.5x" = .error "parse mantissa: 1.5x" ∧
      makeConst wideEngine "1.5x" = .error "parse mantissa: 1.5x" ∧
      makeConstWithPrecision wideEngine 8 "1.5x" = some (.error "parse mantissa: 1.5x")) ∧
    (tightEngine.SetString "0.0096" = .ok { Negative := false, Coeff := 96, Exponent := -4 } ∧
      tightEngine.Round (ladderContext tightEngine (2 ^ 1 % 2 ^ 32))
        { Negative := false, Coeff := 96, Exponent := -4 } = .error "exponent out of range" ∧
      makeConstWithPrecision tightEngine 8 "0.0096" = some (.error "exponent out of range")) ∧
    (makeConstWithPrecision wideEngine 8 "1.5" = some (.ok cacheOnePointFive) ∧
      wideEngine.SetString "1.5" = .ok cacheOnePointFive.unrounded) := by
  refine ⟨⟨by decide, ?_, ?_⟩, ⟨by decide, by decide, ?_⟩, ⟨by decide, ?_⟩⟩
  · exact ((construction_fail_fast wideEngine "1.5x").1 _ (by decide)).1
  · exact ((construction_fail_fast wideEngine "1.5x").1 _ (by decide)).2 8
  · refine (construction_fail_fast tightEngine "0.0096").2.1
      { Negative := false, Coeff := 96, Exponent := -4 } "exponent out of range" 1
      (by decide) ?_ ?_ (by decide) 8 (by decide)
    · intro j hj
      interval_cases j <;> decide
    · intro j hj
      interval_cases j
      exact ⟨{ Negative := false, Coeff := 1, Exponent := -2 }, by decide⟩
  · exact ((construction_fail_fast wideEngine "1.5").2.2 8 cacheOnePointFive (by decide)).1

theorem get_degenerate_witness :
    (makeConstWithPrecision wideEngine 8 "1.5" = some (.ok cacheOnePointFive) ∧
      cacheOnePointFive.vals ≠ []) ∧
    cacheOnePointFive.get 0 = Ref.vals 0 ∧ cacheOnePointFive.get 1 = Ref.vals 0 ∧
    ∃ d, wideEngine.Round { Precision := 1, Rounding := Rounder.RoundHalfUp,
                            MaxExponent := wideEngine.MaxExponent,
                            MinExponent := wideEngine.MinExponent }
        cacheOnePointFive.unrounded = .ok d ∧
      cacheOnePointFive.load (cacheOnePointFive.get 1) = some d ∧
      cacheOnePointFive.load (cacheOnePointFive.get 0) = some d :=
  ⟨⟨by decide, by decide⟩,
    ((get_degenerate wideEngine cacheOnePointFive).2.1 (by decide)).2.1,
    ((get_degenerate wideEngine cacheOnePointFive).2.1 (by decide)).1,
    ((get_degenerate wideEngine cacheOnePointFive).2.2 8 "1.5" (by decide)).2 (by decide)⟩

theorem ladder_of_48_digits_witness :
    (wideEngine.SetString str48Digits = .ok val48Digits ∧ str48Digits.utf8ByteSize = 48 ∧
      6 ≤ 8) ∧
    ∃ c, makeConstWithPrecision wideEngine 8 str48Digits = some (.ok c) ∧
      c.unrounded = val48Digits ∧
      c.vals = [roundHalfUp 1 val48Digits, roundHalfUp 2 val48Digits,
        roundHalfUp 4 val48Digits, roundHalfUp 8 val48Digits, roundHalfUp 16 val48Digits,
        roundHalfUp 32 val48Digits] ∧
      c.get 20 = Ref.vals 5 ∧ c.load (c.get 20) = some (roundHalfUp 32 val48Digits) ∧
      (∀ p, 48 ≤ p → c.get p = Ref.unrounded ∧ c.load (c.get p) = some val48Digits) := by
  have hround : ∀ i, i < 6 →
      wideEngine.Round { Precision := 2 ^ i, Rounding := Rounder.RoundHalfUp,
                         MaxExponent := wideEngine.MaxExponent,
                         MinExponent := wideEngine.MinExponent } val48Digits =
        .ok (roundHalfUp (2 ^ i) val48Digits) := by
    intro i hi
    interval_cases i <;> decide
  exact ⟨⟨by decide, by decide, by decide⟩,
    ladder_of_48_digits wideEngine 8 str48Digits val48Digits
      (fun i => roundHalfUp (2 ^ i) val48Digits) (by decide) (Or.inl (by decide)) hround
      (by decide)⟩

/-! ## The naive shift loop -/

theorem naiveLoop_snd (n i : Nat) : (naiveLoop n i).2 = i + Nat.log 2 n := by
  induction n using Nat.strong_induction_on generalizing i with
  | _ n ih =>
    rw [naiveLoop]
    split
    · next h =>
      rw [ih (n / 2) (by omega) (i + 1), Nat.log_div_base]
      have : 1 ≤ Nat.log 2 n := Nat.log_pos (by norm_num) h
      omega
    · next h =>
      have : Nat.log 2 n = 0 := Nat.log_of_lt (by omega)
      simp [this]

theorem naiveLoopFuel_eq (fuel : Nat) : ∀ n i : Nat, n < 2 ^ (fuel + 1) →
    naiveLoopFuel fuel n i = some (naiveLoop n i) := by
  induction fuel with
  | zero =>
    intro n i hn
    rw [naiveLoopFuel, naiveLoop]
    have : ¬ 2 ≤ n := by omega
    simp [this]
  | succ fuel ih =>
    intro n i hn
    rw [naiveLoopFuel, naiveLoop]
    split
    · next h =>
      apply ih
      rw [pow_succ] at hn
      exact Nat.div_lt_of_lt_mul (by rw [Nat.mul_comm]; exact hn)
    · rfl

theorem getReduce_snd (n i : Nat) : (getReduce n i).2 = i + Nat.log 2 n := by
  unfold getReduce
  rw [getLoop2_snd]
  exact getLoop16_snd n i

/-- C11: for every `uint32` value `n` and every starting `i`, the two-stage
reduction of `get` (by 16 while `n >= 16`, then by 2 while `n >= 2`) ends with
the same `i` as the naive loop that halves one bit at a time; both add
`floor(log2 n)` to `i` for `n >= 1` and add 0 for `n = 0`, the naive loop ends
within 31 iterations, and the index of `get` is the result of the two-stage
reduction. -/
theorem two_stage_refines_naive (n i : Nat) (hn : n < 2 ^ 32) :
    (getReduce n i).2 = (naiveLoop n i).2 ∧
      (naiveLoop n i).2 = i + Nat.log 2 n ∧
      (getReduce n i).2 = i + Nat.log 2 n ∧
      (1 ≤ n → 2 ^ Nat.log 2 n ≤ n ∧ n < 2 ^ (Nat.log 2 n + 1)) ∧
      (n = 0 → (getReduce n i).2 = i ∧ (naiveLoop n i).2 = i) ∧
      naiveLoopFuel 31 n i = some (naiveLoop n i) ∧
      getIndex n = (getReduce (getStart n).1 (getStart n).2).2 := by
  refine ⟨by rw [getReduce_snd, naiveLoop_snd], naiveLoop_snd n i, getReduce_snd n i,
    ?_, ?_, naiveLoopFuel_eq 31 n i hn, rfl⟩
  · intro h1
    exact ⟨Nat.pow_log_le_self 2 (by omega), Nat.lt_pow_succ_log_self (by norm_num) n⟩
  · intro h0
    subst h0
    rw [getReduce_snd, naiveLoop_snd]
    simp

theorem two_stage_refines_naive_witness :
    1000000 < 2 ^ 32 ∧ (getReduce 1000000 1).2 = (naiveLoop 1000000 1).2 ∧
      (getReduce 1000000 1).2 = 1 + Nat.log 2 1000000 :=
  ⟨by norm_num, (two_stage_refines_naive 1000000 1 (by norm_num)).1,
    (two_stage_refines_naive 1000000 1 (by norm_num)).2.2.1⟩

/-! ## Divergence of the ladder loop -/

theorem two_pow_succ_mod (j : Nat) : 2 ^ j % 2 ^ 32 * 2 % 2 ^ 32 = 2 ^ (j + 1) % 2 ^ 32 := by
  rw [Nat.mod_mul_mod, ← pow_succ]

/-- With a loop bound above `2 ^ 31` and roundings that never fail, the guard of
the ladder loop holds in every state it reaches: the loop exhausts any fuel. -/
theorem ladderLoop_diverges {D Err : Type} (E : Engine D Err) (u : D) (m : Nat)
    (hm : 2 ^ 31 < m)
    (hround : ∀ p, ∃ d, E.Round (ladderContext E p) u = .ok d) :
    ∀ (fuel j : Nat) (vals : List D), ladderLoop E u m fuel (2 ^ j % 2 ^ 32) vals = none := by
  have hguard : ∀ j, 2 ^ j % 2 ^ 32 < m := by
    intro j
    rw [two_pow_mod]
    split
    · next h =>
      have : 2 ^ j ≤ 2 ^ 31 := Nat.pow_le_pow_right (by norm_num) (by omega)
      omega
    · omega
  intro fuel
  induction fuel with
  | zero =>
    intro j vals
    rw [ladderLoop, if_pos (hguard j)]
  | succ fuel ih =>
    intro j vals
    obtain ⟨d, hd⟩ := hround (2 ^ j % 2 ^ 32)
    rw [ladderLoop, if_pos (hguard j)]
    simp only [hd]
    rw [two_pow_succ_mod]
    exact ih (j + 1) _

theorem makeConstWithPrecision_diverges {D Err : Type} (E : Engine D Err) (s : String) (u : D)
    (hparse : E.SetString s = .ok u)
    (hm : 2 ^ 31 < s.utf8ByteSize % 2 ^ 32)
    (hround : ∀ p, ∃ d, E.Round (ladderContext E p) u = .ok d) (fuel : Nat) :
    makeConstWithPrecision E fuel s = none := by
  unfold makeConstWithPrecision
  simp only [hparse]
  have := ladderLoop_diverges E u _ hm hround fuel 0 []
  rw [show 2 ^ 0 % 2 ^ 32 = 1 by norm_num] at this
  rw [this]

theorem utf8ByteSize_go_replicate (n : Nat) :
    String.utf8ByteSize.go (List.replicate n '1') = n := by
  induction n with
  | zero => rfl
  | succ n ih =>
    rw [List.replicate_succ, String.utf8ByteSize.go, ih]
    rfl

theorem onesLiteral_utf8ByteSize (n : Nat) : (onesLiteral n).utf8ByteSize = n + 2 := by
  unfold onesLiteral
  show String.utf8ByteSize.go ('1' :: '.' :: List.replicate n '1') = n + 2
  rw [String.utf8ByteSize.go, String.utf8ByteSize.go, utf8ByteSize_go_replicate]
  rfl

theorem scanChar_one (st : Scan) :
    scanChar st '1' = some ⟨st.coeff * 10 + 1, st.digits + 1, st.frac.map (· + 1)⟩ := by
  unfold scanChar
  rw [if_pos (by decide)]
  rfl

theorem scanChars_replicate_ones (n : Nat) : ∀ st : Scan,
    ∃ st1, scanChars st (List.replicate n '1') = some st1 ∧ st1.digits = st.digits + n := by
  induction n with
  | zero => intro st; exact ⟨st, rfl, rfl⟩
  | succ n ih =>
    intro st
    obtain ⟨st1, h1, h2⟩ := ih ⟨st.coeff * 10 + 1, st.digits + 1, st.frac.map (· + 1)⟩
    refine ⟨st1, ?_, by rw [h2]; simp only; omega⟩
    rw [List.replicate_succ, scanChars, scanChar_one]
    exact h1

theorem specSetString_onesLiteral (n : Nat) : ∃ u, specSetString (onesLiteral n) = .ok u := by
  obtain ⟨st1, h1, h2⟩ := scanChars_replicate_ones n ⟨1, 1, some 0⟩
  have hscan : scanChars ⟨0, 0, none⟩ ('1' :: '.' :: List.replicate n '1') = some st1 := by
    rw [scanChars]
    have e1 : scanChar ⟨0, 0, none⟩ '1' = some ⟨1, 1, none⟩ := by decide
    rw [e1]
    simp only
    rw [scanChars]
    have e2 : scanChar ⟨1, 1, none⟩ '.' = some ⟨1, 1, some 0⟩ := by decide
    rw [e2]
    exact h1
  have hd : st1.digits ≠ 0 := by rw [h2]; simp
  refine ⟨⟨false, st1.coeff, - ((st1.frac.getD 0 : Nat) : Int)⟩, ?_⟩
  have hbody : (match ('1' :: '.' :: List.replicate n '1' : List Char) with
      | '-' :: rest => (true, rest)
      | '+' :: rest => (false, rest)
      | cs => (false, cs)) = (false, '1' :: '.' :: List.replicate n '1') := rfl
  unfold specSetString onesLiteral
  simp only [String.toList]
  rw [hbody]
  simp only [hscan, hd, if_false]

theorem exactEngine_SetString (s : String) : exactEngine.SetString s = specSetString s := rfl

/-- With a loop bound of at most `2 ^ 31` the ladder loop ends, by a return or
by a panic, within 31 iterations. -/
theorem ladderLoop_terminates {D Err : Type} (E : Engine D Err) (u : D) (m : Nat)
    (hm : m ≤ 2 ^ 31) :
    ∀ (fuel j : Nat) (vals : List D), 31 ≤ j + fuel → j ≤ 31 →
      ∃ r, ladderLoop E u m fuel (2 ^ j) vals = some r := by
  intro fuel
  induction fuel with
  | zero =>
    intro j vals hj hj31
    have hj' : j = 31 := by omega
    subst hj'
    exact ⟨_, ladderLoop_exit E u m 0 _ vals (by omega)⟩
  | succ fuel ih =>
    intro j vals hj hj31
    by_cases hg : 2 ^ j < m
    · have hj30 : j < 31 := by
        by_contra hc
        have : 2 ^ 31 ≤ 2 ^ j := Nat.pow_le_pow_right (by norm_num) (by omega)
        omega
      rw [ladderLoop, if_pos hg]
      split
      · exact ⟨_, rfl⟩
      · next d hd =>
        have e : 2 ^ j * 2 % 2 ^ 32 = 2 ^ (j + 1) := by
          rw [← pow_succ]
          exact Nat.mod_eq_of_lt (Nat.pow_lt_pow_right (by norm_num) (by omega))
        rw [e]
        exact ih (j + 1) _ (by omega) (by omega)
    · exact ⟨_, ladderLoop_exit E u m _ _ vals hg⟩

/-! ## Counting tiers -/

theorem powersOfTwoBelow_eq_clog (n : Nat) : powersOfTwoBelow n = Nat.clog 2 n := by
  unfold powersOfTwoBelow
  have : (Finset.range n).filter (fun k => 2 ^ k < n) = Finset.range (Nat.clog 2 n) := by
    ext k
    simp only [Finset.mem_filter, Finset.mem_range]
    rw [Nat.pow_lt_iff_lt_clog (by norm_num)]
    constructor
    · exact fun h => h.2
    · intro h
      exact ⟨lt_trans (Nat.lt_two_pow k) ((Nat.pow_lt_iff_lt_clog (by norm_num)).mpr h), h⟩
  rw [this, Finset.card_range]

theorem getIndex_three : getIndex 3 = 2 := by
  apply le_antisymm
  · exact (le_two_pow_iff_getIndex_le 3 2).mp (by norm_num)
  · by_contra hc
    have := (le_two_pow_iff_getIndex_le 3 1).mpr (by omega)
    omega

/-- C13, as amended: for every literal `s` that parses, with `D` significant
digits and string length `L ≤ 2 * D` (in particular `L ≤ D + 1`: digits and at
most a decimal point), the number of powers of two strictly below `L` exceeds
the number strictly below `D` by at most one, and so does the number of tiers
of a ladder built from `s`. -/
theorem loose_bound_adds_one_tier {D Err : Type} (E : Engine D Err) (s : String) (u : D)
    (_hparse : E.SetString s = .ok u)
    (hL : s.utf8ByteSize ≤ 2 * E.NumDigits u) :
    powersOfTwoBelow s.utf8ByteSize ≤ powersOfTwoBelow (E.NumDigits u) + 1 ∧
      ∀ fuel c, makeConstWithPrecision E fuel s = some (.ok c) →
        c.vals.length ≤ powersOfTwoBelow (E.NumDigits u) + 1 := by
  have hcount : powersOfTwoBelow s.utf8ByteSize ≤ powersOfTwoBelow (E.NumDigits u) + 1 := by
    rw [powersOfTwoBelow_eq_clog, powersOfTwoBelow_eq_clog]
    apply (Nat.le_pow_iff_clog_le (by norm_num)).mp
    have := Nat.le_pow_clog (b := 2) (by norm_num) (E.NumDigits u)
    rw [pow_succ]
    omega
  refine ⟨hcount, ?_⟩
  intro fuel c hb
  obtain ⟨_, hiff, _⟩ := makeConstWithPrecision_shape E fuel s c hb
  have hle : c.vals.length ≤ powersOfTwoBelow s.utf8ByteSize := by
    rw [powersOfTwoBelow_eq_clog]
    by_contra hc
    have hlt : Nat.clog 2 s.utf8ByteSize < c.vals.length := by omega
    have h1 := (hiff _).mp hlt
    have h2 : 2 ^ Nat.clog 2 s.utf8ByteSize < s.utf8ByteSize :=
      lt_of_lt_of_le h1 (Nat.mod_le _ _)
    have h3 := Nat.le_pow_clog (b := 2) (by norm_num) s.utf8ByteSize
    omega
  omega

theorem loose_bound_adds_one_tier_witness :
    (wideEngine.SetString "1.5" = .ok onePointFive ∧
      ("1.5" : String).utf8ByteSize ≤ 2 * wideEngine.NumDigits onePointFive) ∧
    powersOfTwoBelow ("1.5" : String).utf8ByteSize ≤
      powersOfTwoBelow (wideEngine.NumDigits onePointFive) + 1 :=
  ⟨⟨by decide, by decide⟩,
    (loose_bound_adds_one_tier wideEngine "1.5" onePointFive (by decide) (by decide)).1⟩

/-- C13 fails as stated: the literal "0.5" parses, has one significant digit and
string length 3, so two powers of two lie below its length and none below its
digit count, and its ladder has two tiers; and the literal of `1/ln(10)` is two
characters, not one, longer than its 2995 digits. -/
theorem loose_bound_adds_two_tiers :
    wideEngine.SetString "0.5" = .ok { Negative := false, Coeff := 5, Exponent := -1 } ∧
      wideEngine.NumDigits { Negative := false, Coeff := 5, Exponent := -1 } = 1 ∧
      ("0.5" : String).utf8ByteSize = 3 ∧
      powersOfTwoBelow 3 = 2 ∧ powersOfTwoBelow 1 = 0 ∧
      ¬ powersOfTwoBelow ("0.5" : String).utf8ByteSize ≤
        powersOfTwoBelow
          (wideEngine.NumDigits { Negative := false, Coeff := 5, Exponent := -1 }) + 1 ∧
      (makeConstWithPrecision wideEngine 8 "0.5").map (fun r => r.map (fun c => c.vals.length)) =
        some (.ok 2) ∧
      (wideEngine.SetString strInvLn10).map wideEngine.NumDigits = .ok 2995 ∧
      strInvLn10.utf8ByteSize = 2997 := by
  refine ⟨by decide, by decide, by decide, by decide, by decide, by decide, by decide, ?_, ?_⟩
  · decide!
  · decide!

/-- C14, as amended: for every literal `s` that parses with `D` significant
digits and every tier index `i` of the built ladder with `2^i ≥ D`, `get(p)`
returns `vals[i]` exactly for the precisions `p` with `2^(i-1) < p ≤ 2^i`
(`p ≤ 1` for `i = 0`), among them `p = 2^i`: the extra tier is selected. When
`Round` is the identity on values with no more digits than `Precision`, that
tier holds the unrounded value itself. -/
theorem extra_tier_is_selected {D Err : Type} (E : Engine D Err) (fuel : Nat) (s : String)
    (u : D) (c : constWithPrecision D) (i : Nat)
    (hparse : E.SetString s = .ok u)
    (hbuilt : makeConstWithPrecision E fuel s = some (.ok c))
    (hi : i < c.vals.length)
    (hD : E.NumDigits u ≤ 2 ^ i) :
    (∀ p, c.get p = Ref.vals i ↔ (p ≤ 2 ^ i ∧ (i = 0 ∨ 2 ^ (i - 1) < p))) ∧
      c.get (2 ^ i) = Ref.vals i ∧
      ((∀ ctx d, E.NumDigits d ≤ ctx.Precision → E.Round ctx d = .ok d) →
        c.vals[i]? = some u ∧ c.load (c.get (2 ^ i)) = some u) := by
  have hu : c.unrounded = u := by
    have := (makeConstWithPrecision_ok_inv E fuel s c hbuilt).1
    rw [hparse] at this
    simp only [Except.ok.injEq] at this
    exact this.symm
  have hchar : ∀ p, c.get p = Ref.vals i ↔ (p ≤ 2 ^ i ∧ (i = 0 ∨ 2 ^ (i - 1) < p)) := by
    intro p
    rw [get_eq_vals_iff]
    constructor
    · rintro ⟨hidx, _⟩
      refine ⟨(le_two_pow_iff_getIndex_le p i).mpr (by omega), ?_⟩
      by_cases h0 : i = 0
      · exact Or.inl h0
      · right
        by_contra hc
        have := (le_two_pow_iff_getIndex_le p (i - 1)).mp (by omega)
        omega
    · rintro ⟨hle, hgt⟩
      refine ⟨?_, hi⟩
      apply le_antisymm ((le_two_pow_iff_getIndex_le p i).mp hle)
      rcases hgt with h0 | hlt
      · omega
      · by_contra hc
        have := (le_two_pow_iff_getIndex_le p (i - 1)).mpr (by omega)
        omega
  have hsel : c.get (2 ^ i) = Ref.vals i := by
    rw [hchar]
    refine ⟨le_refl _, ?_⟩
    by_cases h0 : i = 0
    · exact Or.inl h0
    · right
      exact Nat.pow_lt_pow_right (by norm_num) (by omega)
  refine ⟨hchar, hsel, ?_⟩
  intro hid
  obtain ⟨_, _, htier⟩ := makeConstWithPrecision_shape E fuel s c hbuilt
  have hget : c.vals[i]? = some (c.vals[i]) := List.getElem?_eq_getElem hi
  have hr := htier i _ hget
  rw [hu, hid (ladderContext E (2 ^ i)) u hD] at hr
  simp only [Except.ok.injEq] at hr
  have hv : c.vals[i]? = some u := by rw [hget, ← hr]
  refine ⟨hv, ?_⟩
  rw [hsel]
  exact hv

theorem extra_tier_is_selected_witness :
    (exactEngine.SetString "0.125" = .ok oneEighth ∧
      makeConstWithPrecision exactEngine 8 "0.125" = some (.ok cacheOneEighth) ∧
      2 < cacheOneEighth.vals.length ∧ exactEngine.NumDigits oneEighth ≤ 2 ^ 2) ∧
    cacheOneEighth.get (2 ^ 2) = Ref.vals 2 ∧
    (cacheOneEighth.get 3 = Ref.vals 2 ↔ (3 ≤ 2 ^ 2 ∧ (2 = 0 ∨ 2 ^ (2 - 1) < 3))) :=
  ⟨⟨by decide, by decide, by decide, by decide⟩,
    (extra_tier_is_selected exactEngine 8 "0.125" oneEighth cacheOneEighth 2
      (by decide) (by decide) (by decide) (by decide)).2.1,
    (extra_tier_is_selected exactEngine 8 "0.125" oneEighth cacheOneEighth 2
      (by decide) (by decide) (by decide) (by decide)).1 3⟩

/-- C14 fails as stated: the ladder of the literal "0.125" (three significant
digits, string length 5) has the tier `vals[2]` of precision `4 ≥ 3`, and
`get(3)` returns that tier. -/
theorem extra_tier_answers_get :
    wideEngine.SetString "0.125" = .ok oneEighth ∧
      makeConstWithPrecision wideEngine 8 "0.125" = some (.ok cacheOneEighth) ∧
      wideEngine.NumDigits oneEighth = 3 ∧
      2 < cacheOneEighth.vals.length ∧ wideEngine.NumDigits oneEighth ≤ 2 ^ 2 ∧
      cacheOneEighth.get 3 = Ref.vals 2 :=
  ⟨by decide, by decide, by decide, by decide, by decide,
    (get_eq_vals_iff cacheOneEighth 3 2).mpr ⟨getIndex_three, by decide⟩⟩

/-! ## Accuracy of round half up -/

theorem half_up_close (C k : Nat) :
    |(((if 10 ^ k ≤ 2 * (C % 10 ^ k) then C / 10 ^ k + 1 else C / 10 ^ k) * 10 ^ k : Nat) : Int)
        - (C : Int)| * 2 ≤ ((10 ^ k : Nat) : Int) := by
  have hT : 0 < 10 ^ k := by positivity
  have hdiv := Nat.div_add_mod C (10 ^ k)
  have hmod := Nat.mod_lt C hT
  have hcomm : C / 10 ^ k * 10 ^ k = 10 ^ k * (C / 10 ^ k) := Nat.mul_comm _ _
  generalize hx : 10 ^ k * (C / 10 ^ k) = x at hdiv hcomm
  generalize C % 10 ^ k = r at hdiv hmod ⊢
  generalize 10 ^ k = T at hcomm hmod ⊢
  split
  · next h =>
    rw [Nat.add_mul, Nat.one_mul, hcomm]
    rcases abs_cases (((x + T : Nat) : Int) - (C : Int)) with ⟨h1, _⟩ | ⟨h1, _⟩ <;>
      rw [h1] <;> push_cast <;> omega
  · next h =>
    rw [hcomm]
    rcases abs_cases (((x : Nat) : Int) - (C : Int)) with ⟨h1, _⟩ | ⟨h1, _⟩ <;>
      rw [h1] <;> omega

theorem value_shift (neg : Bool) (c : Nat) (e : Int) (k : Nat) :
    Decimal.value { Negative := neg, Coeff := c, Exponent := e + k } =
      (if neg then -1 else 1) * ((c * 10 ^ k : Nat) : ℚ) * (10 : ℚ) ^ e := by
  unfold Decimal.value
  simp only
  rw [zpow_add₀ (by norm_num : (10 : ℚ) ≠ 0), zpow_natCast]
  push_cast
  ring

theorem value_error_of_close (neg : Bool) (a C : Nat) (e : Int) (k : Nat)
    (h : |((a : Nat) : Int) - (C : Int)| * 2 ≤ ((10 ^ k : Nat) : Int)) :
    |(if neg then -1 else 1) * (a : ℚ) * (10 : ℚ) ^ e -
        (if neg then -1 else 1) * (C : ℚ) * (10 : ℚ) ^ e| ≤
      (1 / 2 : ℚ) * (10 : ℚ) ^ (e + (k : Int)) := by
  have hq : |(a : ℚ) - (C : ℚ)| * 2 ≤ (10 : ℚ) ^ k := by
    have := (Int.cast_le (R := ℚ)).mpr h
    push_cast at this
    exact this
  have hpos : (0 : ℚ) < (10 : ℚ) ^ e := zpow_pos (by norm_num) e
  have hfac : (if neg then -1 else 1) * (a : ℚ) * (10 : ℚ) ^ e -
      (if neg then -1 else 1) * (C : ℚ) * (10 : ℚ) ^ e =
      (if neg then (-1 : ℚ) else 1) * (((a : ℚ) - (C : ℚ)) * (10 : ℚ) ^ e) := by ring
  have hsign : |(if neg then (-1 : ℚ) else 1)| = 1 := by
    cases neg <;> simp
  rw [hfac, abs_mul, hsign, one_mul, abs_mul, abs_of_pos hpos,
    zpow_add₀ (by norm_num : (10 : ℚ) ≠ 0), zpow_natCast]
  nlinarith [abs_nonneg ((a : ℚ) - (C : ℚ))]


/-- Round half up to `q` digits moves a value by at most half a unit of its
`q`-th significant digit. -/
theorem roundHalfUp_error (q : Nat) (u : Decimal) :
    |(roundHalfUp q u).value - u.value| ≤
      (1 / 2 : ℚ) * (10 : ℚ) ^ (u.Exponent + (numDigits u.Coeff : Int) - (q : Int)) := by
  obtain ⟨neg, C, e⟩ := u
  unfold roundHalfUp
  simp only
  split
  · rw [sub_self, abs_zero]
    positivity
  · next h =>
    have hq : q ≠ 0 ∧ q < numDigits C := by
      constructor
      · intro h0; exact h (Or.inl h0)
      · by_contra hc; exact h (Or.inr (by omega))
    have hexp : e + (numDigits C : Int) - (q : Int) = e + ((numDigits C - q : Nat) : Int) := by
      rw [Nat.cast_sub (le_of_lt hq.2)]
      ring
    rw [hexp]
    have hu : Decimal.value { Negative := neg, Coeff := C, Exponent := e } =
        (if neg then -1 else 1) * (C : ℚ) * (10 : ℚ) ^ e := rfl
    have hclose := half_up_close C (numDigits C - q)
    generalize (if 10 ^ (numDigits C - q) ≤ 2 * (C % 10 ^ (numDigits C - q))
      then C / 10 ^ (numDigits C - q) + 1 else C / 10 ^ (numDigits C - q)) = q1 at hclose ⊢
    generalize numDigits C - q = k at hclose ⊢
    by_cases hcarry : q1 = 10 ^ q
    · rw [if_pos hcarry]
      have hval : Decimal.value ⟨neg, q1 / 10, e + (k : Int) + 1⟩ =
          (if neg then -1 else 1) * ((q1 * 10 ^ k : Nat) : ℚ) * (10 : ℚ) ^ e := by
        have e1 : e + (k : Int) + 1 = e + ((k + 1 : Nat) : Int) := by push_cast; ring
        rw [e1, value_shift, hcarry]
        obtain ⟨q0, rfl⟩ : ∃ q0, q = q0 + 1 := ⟨q - 1, by omega⟩
        have e2 : 10 ^ (q0 + 1) / 10 * 10 ^ (k + 1) = 10 ^ (q0 + 1) * 10 ^ k := by
          rw [pow_succ 10 q0, Nat.mul_div_cancel _ (by norm_num : 0 < 10), pow_succ 10 k]
          ring
        rw [e2]
      rw [hval, hu]
      exact value_error_of_close neg _ C e _ hclose
    · rw [if_neg hcarry, value_shift, hu]
      exact value_error_of_close neg _ C e _ hclose

theorem roundHalfUp_of_le (q : Nat) (u : Decimal) (h : numDigits u.Coeff ≤ q) :
    roundHalfUp q u = u := by
  unfold roundHalfUp
  simp only
  rw [if_pos (Or.inr h)]


theorem numDigitsAux_spec : ∀ fuel n : Nat, n ≤ fuel → 0 < n →
    1 ≤ numDigitsAux fuel n ∧ 10 ^ (numDigitsAux fuel n - 1) ≤ n ∧
      n < 10 ^ numDigitsAux fuel n := by
  intro fuel
  induction fuel with
  | zero => intro n h0 hn; omega
  | succ fuel ih =>
    intro n hle hn
    rw [numDigitsAux]
    split
    · next h => simp; omega
    · next h =>
      obtain ⟨h1, h2, h3⟩ := ih (n / 10) (by omega) (by omega)
      refine ⟨by omega, ?_, ?_⟩
      · rw [Nat.add_sub_cancel]
        obtain ⟨a, ha⟩ : ∃ a, numDigitsAux fuel (n / 10) = a + 1 :=
          ⟨numDigitsAux fuel (n / 10) - 1, by omega⟩
        rw [ha] at h2 ⊢
        rw [Nat.add_sub_cancel] at h2
        rw [pow_succ]
        omega
      · rw [pow_succ]
        omega

/-- The digit count of the model is the number of decimal digits. -/
theorem numDigits_spec (n : Nat) (hn : 0 < n) :
    10 ^ (numDigits n - 1) ≤ n ∧ n < 10 ^ numDigits n :=
  (numDigitsAux_spec n n (le_refl _) hn).2

/-- C15: taking `Round` as exact round half up to `Precision` significant digits,
for every literal `s` of length at most `2^31` that parses,
`makeConstWithPrecision` returns a cache, and for every precision `p ≥ 1` the
value `get(p)` returns is `unrounded` rounded half up to `q` significant digits
for some `q ≥ p`; hence it differs from the full constant by at most half a
unit in its `p`-th significant digit, `10^(Exponent + digits - p) / 2`. -/
theorem get_accuracy {Err : Type} (E : Engine Decimal Err)
    (hexact : ∀ ctx d, E.Round ctx d = .ok (roundHalfUp ctx.Precision d))
    (fuel : Nat) (s : String) (u : Decimal)
    (hparse : E.SetString s = .ok u)
    (hL : s.utf8ByteSize ≤ 2 ^ 31)
    (hfuel : 31 ≤ fuel) :
    ∃ c, makeConstWithPrecision E fuel s = some (.ok c) ∧ c.unrounded = u ∧
      ∀ p, 1 ≤ p → ∃ q v, p ≤ q ∧ c.load (c.get p) = some v ∧ v = roundHalfUp q u ∧
        |v.value - u.value| ≤
          (1 / 2 : ℚ) * (10 : ℚ) ^ (u.Exponent + (numDigits u.Coeff : Int) - (p : Int)) := by
  have hmod : s.utf8ByteSize % 2 ^ 32 = s.utf8ByteSize := Nat.mod_eq_of_lt (by omega)
  have hiff : ∀ i, i < Nat.clog 2 s.utf8ByteSize ↔ 2 ^ i < s.utf8ByteSize := fun i =>
    (Nat.pow_lt_iff_lt_clog (by norm_num)).symm
  have hn : Nat.clog 2 s.utf8ByteSize ≤ 31 := (Nat.le_pow_iff_clog_le (by norm_num)).mp hL
  have hret := makeConstWithPrecision_returns E fuel s u (fun i => roundHalfUp (2 ^ i) u)
    (Nat.clog 2 s.utf8ByteSize) hparse hn
    (fun j hj => by rw [hmod]; exact (hiff j).mp hj)
    (by rw [hmod]; exact Nat.le_pow_clog (by norm_num) _)
    (fun j _ => hexact _ u) (by omega)
  refine ⟨_, hret, rfl, ?_⟩
  intro p _
  have hbound : ∀ q, p ≤ q → |(roundHalfUp q u).value - u.value| ≤
      (1 / 2 : ℚ) * (10 : ℚ) ^ (u.Exponent + (numDigits u.Coeff : Int) - (p : Int)) := by
    intro q hq
    refine le_trans (roundHalfUp_error q u) ?_
    apply mul_le_mul_of_nonneg_left _ (by norm_num)
    apply zpow_le_zpow_right₀ (by norm_num)
    have : (p : Int) ≤ (q : Int) := by exact_mod_cast hq
    omega
  by_cases h : getIndex p < Nat.clog 2 s.utf8ByteSize
  · refine ⟨2 ^ getIndex p, roundHalfUp (2 ^ getIndex p) u,
      (le_two_pow_iff_getIndex_le p _).mpr (le_refl _), ?_, rfl,
      hbound _ ((le_two_pow_iff_getIndex_le p _).mpr (le_refl _))⟩
    rw [(get_eq_vals_iff _ p (getIndex p)).mpr ⟨rfl, by simpa using h⟩]
    simp only [constWithPrecision.load]
    rw [List.getElem?_eq_getElem (by simpa using h)]
    simp
  · refine ⟨max p (numDigits u.Coeff), u, le_max_left _ _, ?_,
      (roundHalfUp_of_le _ u (le_max_right _ _)).symm, ?_⟩
    · rw [(get_eq_unrounded_iff _ p).mpr (by simpa using h)]
      rfl
    · have := hbound (max p (numDigits u.Coeff)) (le_max_left _ _)
      rwa [roundHalfUp_of_le _ u (le_max_right _ _)] at this

theorem get_accuracy_witness :
    ((∀ ctx d, exactEngine.Round ctx d = .ok (roundHalfUp ctx.Precision d)) ∧
      exactEngine.SetString "0.125" = .ok oneEighth ∧
      ("0.125" : String).utf8ByteSize ≤ 2 ^ 31 ∧ 31 ≤ 31) ∧
    ∃ c, makeConstWithPrecision exactEngine 31 "0.125" = some (.ok c) ∧ c.unrounded = oneEighth ∧
      ∀ p, 1 ≤ p → ∃ q v, p ≤ q ∧ c.load (c.get p) = some v ∧ v = roundHalfUp q oneEighth ∧
        |v.value - oneEighth.value| ≤
          (1 / 2 : ℚ) * (10 : ℚ) ^
            (oneEighth.Exponent + (numDigits oneEighth.Coeff : Int) - (p : Int)) :=
  ⟨⟨fun _ _ => rfl, by decide, by decide, by decide⟩,
    get_accuracy exactEngine (fun _ _ => rfl) 31 "0.125" oneEighth (by decide) (by decide)
      (by decide)⟩

/-- C16: the two seed literals of the reciprocal division are correct roundings
of their fractions: with `N` the digits of `str48Div17` (resp. `str32Div17`)
read as an integer and `k = 1999` the number of digits after the decimal point,
`|17 * N - 48 * 10^k| ≤ 8` (resp. `|17 * N - 32 * 10^k| ≤ 8`; the differences are
2 and 7), and `N`, `-k` are the coefficient and exponent the literal parses to. -/
theorem seed_literals_are_roundings :
    (fractionDigits str48Div17 = 1999 ∧
      |17 * (digitsValue str48Div17 : Int) - 48 * 10 ^ fractionDigits str48Div17| ≤ 8 ∧
      17 * (digitsValue str48Div17 : Int) - 48 * 10 ^ fractionDigits str48Div17 = 2 ∧
      specSetString str48Div17 = .ok { Negative := false, Coeff := digitsValue str48Div17,
                                       Exponent := - (fractionDigits str48Div17 : Int) }) ∧
    (fractionDigits str32Div17 = 1999 ∧
      |17 * (digitsValue str32Div17 : Int) - 32 * 10 ^ fractionDigits str32Div17| ≤ 8 ∧
      17 * (digitsValue str32Div17 : Int) - 32 * 10 ^ fractionDigits str32Div17 = 7 ∧
      specSetString str32Div17 = .ok { Negative := false, Coeff := digitsValue str32Div17,
                                       Exponent := - (fractionDigits str32Div17 : Int) }) := by
  have h48 : 17 * (digitsValue str48Div17 : Int) - 48 * 10 ^ fractionDigits str48Div17 = 2 := by
    decide!
  have h32 : 17 * (digitsValue str32Div17 : Int) - 32 * 10 ^ fractionDigits str32Div17 = 7 := by
    decide!
  refine ⟨⟨by decide!, ?_, h48, by decide!⟩, ⟨by decide!, ?_, h32, by decide!⟩⟩
  · rw [h48]; decide
  · rw [h32]; decide


/-! ## Digit counts of rounded values -/

theorem numDigits_pos (n : Nat) : 1 ≤ numDigits n := by
  rcases Nat.eq_zero_or_pos n with h | h
  · subst h; decide
  · exact (numDigitsAux_spec n n (le_refl _) h).1

theorem numDigits_unique (n d : Nat) (hn : 0 < n) (hd : 1 ≤ d)
    (hlo : 10 ^ (d - 1) ≤ n) (hhi : n < 10 ^ d) : numDigits n = d := by
  obtain ⟨h1, h2⟩ := numDigits_spec n hn
  have hpos := numDigits_pos n
  by_contra hne
  rcases Nat.lt_or_gt_of_ne hne with hlt | hgt
  · have : 10 ^ numDigits n ≤ 10 ^ (d - 1) := Nat.pow_le_pow_right (by norm_num) (by omega)
    omega
  · have : 10 ^ d ≤ 10 ^ (numDigits n - 1) := Nat.pow_le_pow_right (by norm_num) (by omega)
    omega

theorem pos_of_two_le_numDigits (n : Nat) (h : 2 ≤ numDigits n) : 0 < n := by
  rcases Nat.eq_zero_or_pos n with h0 | h0
  · subst h0
    have : numDigits 0 = 1 := by decide
    omega
  · exact h0

/-- Round half up to `q ≥ 1` digits yields `min q digits` digits and keeps the
adjusted exponent or raises it by one. -/
theorem roundHalfUp_shape (q : Nat) (u : Decimal) (hq : 1 ≤ q) :
    numDigits (roundHalfUp q u).Coeff = min q (numDigits u.Coeff) ∧
      ((roundHalfUp q u).Exponent + (numDigits (roundHalfUp q u).Coeff : Int) =
          u.Exponent + (numDigits u.Coeff : Int) ∨
        (roundHalfUp q u).Exponent + (numDigits (roundHalfUp q u).Coeff : Int) =
          u.Exponent + (numDigits u.Coeff : Int) + 1) := by
  obtain ⟨neg, C, e⟩ := u
  unfold roundHalfUp
  simp only
  by_cases h : q = 0 ∨ numDigits C ≤ q
  · rw [if_pos h]
    have hle : numDigits C ≤ q := by
      rcases h with h | h
      · omega
      · exact h
    exact ⟨(Nat.min_eq_right hle).symm, Or.inl rfl⟩
  · rw [if_neg h]
    have hlt : q < numDigits C := by
      by_contra hc; exact h (Or.inr (by omega))
    have hC : 0 < C := pos_of_two_le_numDigits C (by omega)
    obtain ⟨hlo, hhi⟩ := numDigits_spec C hC
    have hmin : min q (numDigits C) = q := Nat.min_eq_left (le_of_lt hlt)
    rw [hmin]
    obtain ⟨k, hk⟩ : ∃ k, numDigits C = q + k := ⟨numDigits C - q, by omega⟩
    have hk' : numDigits C - q = k := by omega
    rw [hk'] at *
    rw [hk] at hlo hhi ⊢
    have hT : 0 < 10 ^ k := by positivity
    have hq0lo : 10 ^ (q - 1) ≤ C / 10 ^ k := by
      rw [Nat.le_div_iff_mul_le hT, ← pow_add]
      rw [show q - 1 + k = q + k - 1 by omega]
      exact hlo
    have hq0hi : C / 10 ^ k < 10 ^ q := by
      rw [Nat.div_lt_iff_lt_mul hT, ← pow_add]
      exact hhi
    have hq1 : C / 10 ^ k ≤ (if 10 ^ k ≤ 2 * (C % 10 ^ k) then C / 10 ^ k + 1 else C / 10 ^ k) ∧
        (if 10 ^ k ≤ 2 * (C % 10 ^ k) then C / 10 ^ k + 1 else C / 10 ^ k) ≤ C / 10 ^ k + 1 := by
      split <;> omega
    generalize (if 10 ^ k ≤ 2 * (C % 10 ^ k) then C / 10 ^ k + 1 else C / 10 ^ k) = q1 at hq1 ⊢
    by_cases hcarry : q1 = 10 ^ q
    · rw [if_pos hcarry]
      simp only
      have hten : q1 / 10 = 10 ^ (q - 1) := by
        rw [hcarry]
        obtain ⟨q0, rfl⟩ : ∃ q0, q = q0 + 1 := ⟨q - 1, by omega⟩
        rw [pow_succ, Nat.mul_div_cancel _ (by norm_num : 0 < 10), Nat.add_sub_cancel]
      have hnd : numDigits (q1 / 10) = q := by
        rw [hten]
        apply numDigits_unique _ q (by positivity) hq (le_refl _)
        exact Nat.pow_lt_pow_right (by norm_num) (by omega)
      rw [hnd]
      refine ⟨rfl, Or.inr ?_⟩
      push_cast
      ring
    · rw [if_neg hcarry]
      simp only
      have hpow : 0 < 10 ^ (q - 1) := by positivity
      have hq1lt : q1 < 10 ^ q := by omega
      have hnd : numDigits q1 = q :=
        numDigits_unique q1 q (by omega) hq (by omega) hq1lt
      rw [hnd]
      refine ⟨rfl, Or.inl ?_⟩
      push_cast
      ring

theorem roundHalfUp_zero (u : Decimal) : roundHalfUp 0 u = u := by
  unfold roundHalfUp
  simp

/-- The rounding routine with exponent bounds succeeds, with the half-up result,
when the adjusted exponent of the input and the next one lie within the
bounds. -/
theorem specRound_ok (ctx : Context) (u : Decimal)
    (hlo : ctx.MinExponent ≤ u.Exponent + (numDigits u.Coeff : Int) - 1)
    (hhi : u.Exponent + (numDigits u.Coeff : Int) ≤ ctx.MaxExponent) :
    specRound ctx u = .ok (roundHalfUp ctx.Precision u) := by
  have hadj : (roundHalfUp ctx.Precision u).Exponent +
        (numDigits (roundHalfUp ctx.Precision u).Coeff : Int) =
          u.Exponent + (numDigits u.Coeff : Int) ∨
      (roundHalfUp ctx.Precision u).Exponent +
        (numDigits (roundHalfUp ctx.Precision u).Coeff : Int) =
          u.Exponent + (numDigits u.Coeff : Int) + 1 := by
    rcases Nat.eq_zero_or_pos ctx.Precision with h0 | h0
    · rw [h0, roundHalfUp_zero]
      exact Or.inl rfl
    · exact (roundHalfUp_shape ctx.Precision u h0).2
  unfold specRound
  cases ctx.Rounding
  simp only
  rw [if_neg]
  rintro (h | h) <;> rcases hadj with ha | ha <;> omega

/-- Whatever the exponent bounds, a successful rounding of the model to a
precision `≥ 1` yields `min Precision digits` digits. -/
theorem specRound_digits (ctx : Context) (d r : Decimal) (hp : 1 ≤ ctx.Precision)
    (h : specRound ctx d = .ok r) :
    numDigits r.Coeff = min ctx.Precision (numDigits d.Coeff) := by
  unfold specRound at h
  cases hr : ctx.Rounding
  rw [hr] at h
  simp only at h
  split at h
  · simp at h
  · simp only [Except.ok.injEq] at h
    rw [← h]
    exact (roundHalfUp_shape ctx.Precision d hp).1


/-! ## The literal of ones -/

theorem scanChars_ones_bounds (n : Nat) : ∀ (st : Scan) (f : Nat), st.frac = some f →
    1 ≤ st.digits → 10 ^ (st.digits - 1) ≤ st.coeff → st.coeff < 10 ^ st.digits →
    ∃ st1, scanChars st (List.replicate n '1') = some st1 ∧ st1.digits = st.digits + n ∧
      st1.frac = some (f + n) ∧ 10 ^ (st1.digits - 1) ≤ st1.coeff ∧
      st1.coeff < 10 ^ st1.digits := by
  induction n with
  | zero => intro st f hf hd hlo hhi; exact ⟨st, rfl, rfl, hf, hlo, hhi⟩
  | succ n ih =>
    intro st f hf hd hlo hhi
    obtain ⟨a, ha⟩ : ∃ a, st.digits = a + 1 := ⟨st.digits - 1, by omega⟩
    rw [ha, Nat.add_sub_cancel] at hlo
    rw [ha, pow_succ] at hhi
    obtain ⟨st1, h1, h2, h3, h4, h5⟩ :=
      ih ⟨st.coeff * 10 + 1, st.digits + 1, st.frac.map (· + 1)⟩ (f + 1)
        (by simp [hf]) (by simp)
        (by simp only [Nat.add_sub_cancel]; rw [ha, pow_succ]; omega)
        (by simp only; rw [ha, pow_succ, pow_succ]; omega)
    refine ⟨st1, ?_, by rw [h2]; simp only; omega, by rw [h3]; congr 1; omega, h4, h5⟩
    rw [List.replicate_succ, scanChars, scanChar_one]
    exact h1

/-- The literal of ones parses to a value with `n + 1` digits, exponent `-n`. -/
theorem specSetString_onesLiteral_spec (n : Nat) :
    ∃ u, specSetString (onesLiteral n) = .ok u ∧ u.Exponent = - (n : Int) ∧
      numDigits u.Coeff = n + 1 := by
  obtain ⟨st1, h1, h2, h3, h4, h5⟩ := scanChars_ones_bounds n ⟨1, 1, some 0⟩ 0 rfl
    (by simp) (by simp) (by simp)
  simp only [Nat.zero_add] at h3
  simp only at h2
  have hscan : scanChars ⟨0, 0, none⟩ ('1' :: '.' :: List.replicate n '1') = some st1 := by
    rw [scanChars]
    have e1 : scanChar ⟨0, 0, none⟩ '1' = some ⟨1, 1, none⟩ := by decide
    rw [e1]
    simp only
    rw [scanChars]
    have e2 : scanChar ⟨1, 1, none⟩ '.' = some ⟨1, 1, some 0⟩ := by decide
    rw [e2]
    exact h1
  have hd : st1.digits ≠ 0 := by rw [h2]; omega
  have hdig : numDigits st1.coeff = n + 1 := by
    have hpow : 0 < 10 ^ (st1.digits - 1) := by positivity
    have := numDigits_unique st1.coeff st1.digits (by omega) (by omega) h4 h5
    rw [this, h2]
    omega
  refine ⟨⟨false, st1.coeff, - ((st1.frac.getD 0 : Nat) : Int)⟩, ?_, ?_, hdig⟩
  · have hbody : (match ('1' :: '.' :: List.replicate n '1' : List Char) with
        | '-' :: rest => (true, rest)
        | '+' :: rest => (false, rest)
        | cs => (false, cs)) = (false, '1' :: '.' :: List.replicate n '1') := rfl
    unfold specSetString onesLiteral
    simp only [String.toList]
    rw [hbody]
    simp only [hscan, hd, if_false]
  · simp only [h3, Option.getD_some]

theorem wideEngine_SetString (s : String) : wideEngine.SetString s = specSetString s := rfl

theorem wideEngine_Round (ctx : Context) (d : Decimal) :
    wideEngine.Round ctx d = specRound ctx d := rfl

theorem wideEngine_NumDigits (d : Decimal) : wideEngine.NumDigits d = numDigits d.Coeff := rfl

/-- C12, as amended: for every literal `s` whose length, as a `uint32`, is at most
`2^31`, the ladder loop of `makeConstWithPrecision` ends, by a return or by a
panic, within 31 iterations whatever the parser and the rounding routine do;
and a returned ladder has exactly `ceil(log2 maxPrec)` tiers. -/
theorem ladder_ends_within_31 {D Err : Type} (E : Engine D Err) (s : String) (fuel : Nat)
    (hlen : s.utf8ByteSize % 2 ^ 32 ≤ 2 ^ 31) (hfuel : 31 ≤ fuel) :
    (∃ r, makeConstWithPrecision E fuel s = some r) ∧
      ∀ c, makeConstWithPrecision E fuel s = some (.ok c) →
        c.vals.length = Nat.clog 2 (s.utf8ByteSize % 2 ^ 32) ∧ c.vals.length ≤ 31 := by
  constructor
  · unfold makeConstWithPrecision
    cases hp : E.SetString s with
    | error e => exact ⟨_, rfl⟩
    | ok u =>
      simp only
      obtain ⟨r, hr⟩ := ladderLoop_terminates E u _ hlen fuel 0 [] (by omega) (by omega)
      rw [pow_zero] at hr
      rw [hr]
      cases r with
      | error e => exact ⟨_, rfl⟩
      | ok vals => exact ⟨_, rfl⟩
  · intro c hc
    obtain ⟨h31, hiff, _⟩ := makeConstWithPrecision_shape E fuel s c hc
    refine ⟨?_, h31⟩
    apply le_antisymm
    · by_contra hcon
      have hlt : Nat.clog 2 (s.utf8ByteSize % 2 ^ 32) < c.vals.length := by omega
      have h1 := (hiff _).mp hlt
      have h2 := Nat.le_pow_clog (b := 2) (by norm_num) (s.utf8ByteSize % 2 ^ 32)
      omega
    · by_contra hcon
      have hlt : c.vals.length < Nat.clog 2 (s.utf8ByteSize % 2 ^ 32) := by omega
      have h1 := (Nat.pow_lt_iff_lt_clog (by norm_num)).mpr hlt
      have h2 := (hiff _).mpr h1
      omega

theorem ladder_ends_within_31_witness :
    (strLn10.utf8ByteSize % 2 ^ 32 ≤ 2 ^ 31 ∧ strInvLn10.utf8ByteSize % 2 ^ 32 ≤ 2 ^ 31 ∧
      str48Div17.utf8ByteSize % 2 ^ 32 ≤ 2 ^ 31 ∧ str32Div17.utf8ByteSize % 2 ^ 32 ≤ 2 ^ 31 ∧
      31 ≤ 31) ∧
    (∃ r, decimalLn10 wideEngine 31 = some r) ∧ (∃ r, decimalInvLn10 wideEngine 31 = some r) ∧
    (∃ r, decimalQuoC1 wideEngine 31 = some r) ∧ (∃ r, decimalQuoC2 wideEngine 31 = some r) :=
  ⟨⟨by decide!, by decide!, by decide!, by decide!, by decide⟩,
    (ladder_ends_within_31 wideEngine strLn10 31 (by decide!) (by decide)).1,
    (ladder_ends_within_31 wideEngine strInvLn10 31 (by decide!) (by decide)).1,
    (ladder_ends_within_31 wideEngine str48Div17 31 (by decide!) (by decide)).1,
    (ladder_ends_within_31 wideEngine str32Div17 31 (by decide!) (by decide)).1⟩

/-- C12 fails as stated: the literal `1.11...1` of `2^31 + 1` bytes parses, and
the ladder loop of `makeConstWithPrecision` runs out of every amount of fuel,
both when `Round` is exact round half up and when it also checks the exponent
bounds: after `p = 2^31` the doubling wraps to `p = 0`, which stays below
`maxPrec` for ever. -/
theorem ladder_never_ends_on_long_literal :
    (onesLiteral (2 ^ 31 - 1)).utf8ByteSize = 2 ^ 31 + 1 ∧
      (∃ u, specSetString (onesLiteral (2 ^ 31 - 1)) = .ok u) ∧
      (∀ fuel, makeConstWithPrecision exactEngine fuel (onesLiteral (2 ^ 31 - 1)) = none) ∧
      (∀ fuel, makeConstWithPrecision wideEngine fuel (onesLiteral (2 ^ 31 - 1)) = none) := by
  have hlen : (onesLiteral (2 ^ 31 - 1)).utf8ByteSize = 2 ^ 31 + 1 := by
    rw [onesLiteral_utf8ByteSize]
    norm_num
  have hm : 2 ^ 31 < (onesLiteral (2 ^ 31 - 1)).utf8ByteSize % 2 ^ 32 := by
    rw [hlen]
    norm_num
  obtain ⟨u, hu, hexp, hdig⟩ := specSetString_onesLiteral_spec (2 ^ 31 - 1)
  have hu1 := hu
  rw [← exactEngine_SetString] at hu1
  have hu2 := hu
  rw [← wideEngine_SetString] at hu2
  refine ⟨hlen, ⟨u, hu⟩, fun fuel => ?_, fun fuel => ?_⟩
  · exact makeConstWithPrecision_diverges exactEngine _ u hu1 hm (fun p => ⟨_, rfl⟩) fuel
  · refine makeConstWithPrecision_diverges wideEngine _ u hu2 hm (fun p => ?_) fuel
    refine ⟨roundHalfUp p u, ?_⟩
    rw [wideEngine_Round]
    have hctx : (ladderContext wideEngine p).Precision = p := rfl
    rw [← hctx]
    apply specRound_ok
    · rw [hexp, hdig]
      show (-100000 : Int) ≤ _
      push_cast
      try omega
    · rw [hexp, hdig]
      show _ ≤ (100000 : Int)
      push_cast
      try omega


/-! ## Digits delivered by `get` -/

/-- C2, as amended: for every cache built by `makeConstWithPrecision` from a
literal with `D` significant digits, `Round` to `Precision ≥ 1` digits yielding
`min Precision digits` digits, and every precision `p ≥ 1`, the value returned
by `get(p)` has `min (2^i) D` significant digits when it is the tier `vals[i]`
(rounded from the literal at precision `2^i ≥ p`) and `D` digits when it is
`unrounded`; so its digit count is at least `min p D`, and it is at least `p`
exactly when `p ≤ D`. -/
theorem get_delivers_min {D Err : Type} (E : Engine D Err) (fuel : Nat) (s : String)
    (u : D) (c : constWithPrecision D) (p : Nat)
    (hdigits : ∀ ctx d r, 1 ≤ ctx.Precision → E.Round ctx d = .ok r →
      E.NumDigits r = min ctx.Precision (E.NumDigits d))
    (hparse : E.SetString s = .ok u)
    (hbuilt : makeConstWithPrecision E fuel s = some (.ok c))
    (_hp : 1 ≤ p) :
    ∃ n, digitsReturned E c p = some n ∧
      min p (E.NumDigits u) ≤ n ∧
      (p ≤ n ↔ p ≤ E.NumDigits u) ∧
      (c.get p = Ref.unrounded → n = E.NumDigits u) ∧
      (∀ i, c.get p = Ref.vals i → p ≤ 2 ^ i ∧ n = min (2 ^ i) (E.NumDigits u) ∧
        ∃ v, c.vals[i]? = some v ∧
          E.Round { Precision := 2 ^ i, Rounding := Rounder.RoundHalfUp,
                    MaxExponent := E.MaxExponent, MinExponent := E.MinExponent } u = .ok v ∧
          E.NumDigits v = n) := by
  have hu : c.unrounded = u := by
    have := (makeConstWithPrecision_ok_inv E fuel s c hbuilt).1
    rw [hparse] at this
    simp only [Except.ok.injEq] at this
    exact this.symm
  obtain ⟨_, _, htier⟩ := makeConstWithPrecision_shape E fuel s c hbuilt
  by_cases h : c.vals.length ≤ getIndex p
  · have hget : c.get p = Ref.unrounded := (get_eq_unrounded_iff c p).mpr h
    refine ⟨E.NumDigits u, ?_, Nat.min_le_right _ _, Iff.rfl, fun _ => rfl, ?_⟩
    · simp only [digitsReturned, hget, constWithPrecision.load, hu, Option.map_some']
    · intro i hi
      rw [hget] at hi
      exact absurd hi (by simp)
  · have hlt : getIndex p < c.vals.length := by omega
    have hget : c.get p = Ref.vals (getIndex p) := (get_eq_vals_iff c p _).mpr ⟨rfl, hlt⟩
    have hple : p ≤ 2 ^ getIndex p := (le_two_pow_iff_getIndex_le p _).mpr (le_refl _)
    have hsome : c.vals[getIndex p]? = some (c.vals[getIndex p]) :=
      List.getElem?_eq_getElem hlt
    have hr := htier _ _ hsome
    rw [hu] at hr
    have hnd : E.NumDigits (c.vals[getIndex p]) = min (2 ^ getIndex p) (E.NumDigits u) :=
      hdigits (ladderContext E (2 ^ getIndex p)) u _ Nat.one_le_two_pow hr
    refine ⟨min (2 ^ getIndex p) (E.NumDigits u), ?_, ?_, ?_, ?_, ?_⟩
    · simp only [digitsReturned, hget, constWithPrecision.load, hsome, Option.map_some', hnd]
    · exact le_min (le_trans (Nat.min_le_left _ _) hple) (Nat.min_le_right _ _)
    · constructor
      · intro hpn
        exact le_trans hpn (Nat.min_le_right _ _)
      · intro hpd
        exact le_min hple hpd
    · intro hun
      rw [hget] at hun
      exact absurd hun (by simp)
    · intro i hi
      rw [hget] at hi
      simp only [Ref.vals.injEq] at hi
      subst hi
      exact ⟨hple, rfl, _, hsome, hr, hnd⟩

theorem get_delivers_min_witness :
    ((∀ ctx d r, 1 ≤ ctx.Precision → wideEngine.Round ctx d = .ok r →
        wideEngine.NumDigits r = min ctx.Precision (wideEngine.NumDigits d)) ∧
      wideEngine.SetString "0.125" = .ok oneEighth ∧
      makeConstWithPrecision wideEngine 8 "0.125" = some (.ok cacheOneEighth) ∧ 1 ≤ 4) ∧
    ∃ n, digitsReturned wideEngine cacheOneEighth 4 = some n ∧
      min 4 (wideEngine.NumDigits oneEighth) ≤ n ∧
      (4 ≤ n ↔ 4 ≤ wideEngine.NumDigits oneEighth) := by
  have hdigits : ∀ ctx d r, 1 ≤ ctx.Precision → wideEngine.Round ctx d = .ok r →
      wideEngine.NumDigits r = min ctx.Precision (wideEngine.NumDigits d) :=
    fun ctx d r hp h => specRound_digits ctx d r hp h
  obtain ⟨n, h1, h2, h3, _⟩ := get_delivers_min wideEngine 8 "0.125" oneEighth cacheOneEighth 4
    hdigits (by decide) (by decide) (by decide)
  exact ⟨⟨hdigits, by decide, by decide, by decide⟩, n, h1, h2, h3⟩

/-- C2 fails as stated: the cache `decimalLn10` is built (12 tiers, 3011 digits),
and `get(3012)` returns `unrounded`, a value of 3011 significant digits, fewer
than the 3012 asked for. -/
theorem get_under_delivers_ln10 :
    ∃ c, decimalLn10 wideEngine 40 = some (.ok c) ∧
      1 ≤ 3012 ∧ c.get 3012 = Ref.unrounded ∧
      digitsReturned wideEngine c 3012 = some 3011 ∧
      ¬ ∃ n, digitsReturned wideEngine c 3012 = some n ∧ 3012 ≤ n := by
  have h : (makeConstWithPrecision wideEngine 40 strLn10).map
      (fun r => r.map (fun c => (c.vals.length, numDigits c.unrounded.Coeff))) =
      some (.ok (12, 3011)) := by decide!
  unfold decimalLn10
  rcases hb : makeConstWithPrecision wideEngine 40 strLn10 with _ | (e | c)
  · rw [hb] at h; simp at h
  · rw [hb] at h; simp [Except.map] at h
  · rw [hb] at h
    simp only [Option.map_some', Except.map, Option.some.injEq, Except.ok.injEq,
      Prod.mk.injEq] at h
    have hget : c.get 3012 = Ref.unrounded := by
      rw [get_eq_unrounded_iff, h.1]
      by_contra hc
      have := (le_two_pow_iff_getIndex_le 3012 11).mpr (by omega)
      omega
    have hd : digitsReturned wideEngine c 3012 = some 3011 := by
      simp only [digitsReturned, hget, constWithPrecision.load, Option.map_some',
        wideEngine_NumDigits, h.2]
    refine ⟨c, rfl, by decide, hget, hd, ?_⟩
    rintro ⟨n, hn, hle⟩
    rw [hd] at hn
    simp only [Option.some.injEq] at hn
    omega

end Apd
